import Mathlib

/-!
Verification of `logical/framework/openapi.go`: a shallow embedding of the
OpenAPI document-generation core (pattern expansion, field classification,
operation assembly) together with proofs about its behaviour.

Strings are modelled as `List Char`; the handful of Go `regexp` operations
used by the source are modelled directly, each specialised to the concrete
regular expression the source compiles (`reqdRe`, `optRe`, `altRe`,
`pathFieldsRe`, `cleanCharsRe`, `cleanSuffixRe`, `wsRe`), with Go's
leftmost-first matching semantics.
-/

namespace VaultOAS

/-- Go `\w` character class: `[0-9A-Za-z_]`. -/
def isWordChar (c : Char) : Bool :=
  (('0' ≤ c ∧ c ≤ '9') ∨ ('a' ≤ c ∧ c ≤ 'z') ∨ ('A' ≤ c ∧ c ≤ 'Z') ∨ c = '_' : Prop)

/-- Characters matched by the Go regex class `\s`: `[\t\n\f\r ]`. -/
def isWsChar (c : Char) : Bool :=
  c = '\t' ∨ c = '\n' ∨ c = '\x0c' ∨ c = '\r' ∨ c = ' '

/-- Characters trimmed by Go `strings.TrimSpace` (ASCII part of `unicode.IsSpace`). -/
def isTrimChar (c : Char) : Bool :=
  c = '\t' ∨ c = '\n' ∨ c = '\x0b' ∨ c = '\x0c' ∨ c = '\r' ∨ c = ' '

/-- The set stripped by `cleanCharsRe = [()^$?]`. -/
def isCleanChar (c : Char) : Bool :=
  c = '(' ∨ c = ')' ∨ c = '^' ∨ c = '$' ∨ c = '?'

/-- Replace the first occurrence of `old` (Go `strings.Replace(s, old, new, 1)`).
If `old` does not occur, `s` is returned unchanged.  (For the empty `old`, Go
would insert `new` before the first character; the source only calls this with
non-empty regex match texts, for which the clause never fires.) -/
def replaceFirstSub (s old new : List Char) : List Char :=
  match s with
  | [] => []
  | c :: rest =>
    if old.isPrefixOf (c :: rest) then new ++ (c :: rest).drop old.length
    else c :: replaceFirstSub rest old new

/-- Fuel-driven worker for `replaceAllSub`; consumes at least one input
character per step, so `s.length` fuel suffices. -/
def replaceAllSubAux (fuel : Nat) (s old new : List Char) : List Char :=
  match fuel, s with
  | _, [] => []
  | 0, s => s
  | fuel + 1, c :: rest =>
    if old.isPrefixOf (c :: rest) then
      new ++ replaceAllSubAux fuel ((c :: rest).drop old.length) old new
    else c :: replaceAllSubAux fuel rest old new

/-- Replace all non-overlapping occurrences of `old`
(Go `strings.Replace(s, old, new, -1)`), for non-empty `old`; for empty `old`
the source's only call site passes `new = ""`, for which Go's behaviour also
returns `s` unchanged. -/
def replaceAllSub (s old new : List Char) : List Char :=
  if old = [] then s else replaceAllSubAux s.length s old new

/-- Go `strings.Index`: index of the first occurrence of `sub`, or `none`
(Go returns `-1`). -/
def indexOfSub : List Char → List Char → Option Nat
  | s, sub =>
    match s with
    | [] => if sub = [] then some 0 else none
    | c :: rest =>
      if sub.isPrefixOf (c :: rest) then some 0
      else (indexOfSub rest sub).map (· + 1)

/-- Go `strings.LastIndex`: index of the last occurrence of `sub`, or `none`. -/
def lastIndexOfSub (s sub : List Char) : Option Nat :=
  match s with
  | [] => if sub = [] then some 0 else none
  | c :: rest =>
    match lastIndexOfSub rest sub with
    | some k => some (k + 1)
    | none => if sub.isPrefixOf (c :: rest) then some 0 else none

/-- Does `sub` occur as a contiguous substring of `s` (Go `strings.Contains`)? -/
def containsSub (s sub : List Char) : Bool :=
  (indexOfSub s sub).isSome

/-! ### `reqdRe = \(?\?P<(\w+)>[^)]*\)?` -/

/-- Try to match `reqdRe` anchored at the head of `s`.  Go's leftmost-first
semantics for this pattern: `\(?` greedily takes a `(` (the fallback to the
empty alternative can never succeed afterwards, since a position holding `(`
does not hold `?`); `(\w+)` is a maximal non-empty word run followed by `>`;
`[^)]*` is the maximal run of non-`)` characters; `\)?` takes a `)` when
present.  Returns `(matched text, capture group, rest of the input)`. -/
def reqdMatchAt (s : List Char) : Option (List Char × List Char × List Char) :=
  let core : List Char → Option (List Char × List Char × List Char) :=
    fun t =>
      match t with
      | '?' :: 'P' :: '<' :: u =>
        let name := u.takeWhile isWordChar
        if name = [] then none
        else
          match u.drop name.length with
          | '>' :: v =>
            let body := v.takeWhile (fun c => c ≠ ')')
            let w := v.drop body.length
            match w with
            | ')' :: r =>
              some ('?' :: 'P' :: '<' :: (name ++ '>' :: body ++ [')']), name, r)
            | r =>
              some ('?' :: 'P' :: '<' :: (name ++ '>' :: body), name, r)
          | _ => none
      | _ => none
  match s with
  | '(' :: t =>
    match core t with
    | some (txt, name, r) => some ('(' :: txt, name, r)
    | none => none
  | t => core t

/-- Fuel-driven scan for `reqdRe.FindAllStringSubmatch(s, -1)`: leftmost-first,
non-overlapping; yields `(match text, capture)` pairs.  Every step consumes at
least one character, so `s.length` fuel suffices. -/
def reqdFindAllAux (fuel : Nat) (s : List Char) : List (List Char × List Char) :=
  match fuel, s with
  | _, [] => []
  | 0, _ => []
  | fuel + 1, c :: rest =>
    match reqdMatchAt (c :: rest) with
    | some (txt, name, r) => (txt, name) :: reqdFindAllAux fuel r
    | none => reqdFindAllAux fuel rest

/-- All matches of `reqdRe` in `s`. -/
def reqdFindAll (s : List Char) : List (List Char × List Char) :=
  reqdFindAllAux s.length s

/-! ### `optRe = (?U)\(.*\)\?` -/

/-- Ungreedy scan of the `.*` inside `optRe`: find the shortest core such
that the input continues with `)?`.  `.` does not match a newline.  Returns
`(core, rest after the closing ")?")`. -/
def optScanCore (t : List Char) : Option (List Char × List Char) :=
  match t with
  | ')' :: '?' :: r => some ([], r)
  | c :: rest =>
    if c = '\n' then none
    else (optScanCore rest).map (fun p => (c :: p.1, p.2))
  | [] => none

/-- `optRe.FindStringIndex`, returned as a decomposition: the left-most match
of `\(.*\)\?` splits `s` into `pre ++ '(' :: core ++ ')' :: '?' :: suf`. -/
def optReFind (s : List Char) : Option (List Char × List Char × List Char) :=
  match s with
  | [] => none
  | '(' :: t =>
    match optScanCore t with
    | some (core, suf) => some ([], core, suf)
    | none => (optReFind t).map (fun p => ('(' :: p.1, p.2.1, p.2.2))
  | c :: t => (optReFind t).map (fun p => (c :: p.1, p.2.1, p.2.2))

/-! ### `altRe = \((.*)\|(.*)\)` -/

/-- Index of the last occurrence of `c` in `l` strictly before position
`stop`, if any. -/
def lastIdxBefore (l : List Char) (c : Char) (stop : Nat) : Option Nat :=
  (((l.take stop).enum.filter (fun p => p.2 = c)).getLast?).map (·.1)

/-- Greedy match of `(.*)\|(.*)\)` against the text following an opening
parenthesis.  With Go's leftmost-first backtracking this selects the last
usable `)` before the first newline, and the last `|` before that `)`. -/
def altMatchAfterParen (rest : List Char) : Option (List Char × List Char) :=
  let stop := (rest.takeWhile (fun c => c ≠ '\n')).length
  match lastIdxBefore rest ')' stop with
  | none => none
  | some q =>
    match lastIdxBefore rest '|' q with
    | none => none
    | some p => some (rest.take p, (rest.take q).drop (p + 1))

/-- First match of `altRe` in `s`: the two capture groups of
`altRe.FindAllStringSubmatch(s, -1)[0]`. -/
def altReFind (s : List Char) : Option (List Char × List Char) :=
  match s with
  | [] => none
  | '(' :: t =>
    match altMatchAfterParen t with
    | some gs => some gs
    | none => altReFind t
  | _ :: t => altReFind t

/-! ### Cleanup regexes -/

/-- `cleanSuffixRe.ReplaceAllString(s, "")` for `cleanSuffixRe = /\?\$?$`:
strip a trailing `/?$` or `/?`. -/
def cleanSuffix (s : List Char) : List Char :=
  if ['/', '?', '$'].isSuffixOf s then s.take (s.length - 3)
  else if ['/', '?'].isSuffixOf s then s.take (s.length - 2)
  else s

/-- `cleanCharsRe.ReplaceAllString(s, "")` for `cleanCharsRe = [()^$?]`. -/
def cleanChars (s : List Char) : List Char :=
  s.filter (fun c => ¬ isCleanChar c)

/-- Whitespace-run collapse used by `cleanString` (`wsRe.ReplaceAllString(s, " ")`
on a string without leading or trailing whitespace); `prev` records whether the
previous character was whitespace. -/
def collapseWs (prev : Bool) : List Char → List Char
  | [] => []
  | c :: rest =>
    if isWsChar c then
      if prev then collapseWs true rest else ' ' :: collapseWs true rest
    else c :: collapseWs false rest

/-- Go `strings.TrimSpace`. -/
def trimSpace (s : List Char) : List Char :=
  ((s.dropWhile isTrimChar).reverse.dropWhile isTrimChar).reverse

/-- `cleanString` from the source: trim leading/trailing whitespace and
compress interior whitespace runs into a single space. -/
def cleanString (s : String) : String :=
  String.mk (collapseWs false (trimSpace s.data))

/-! ### `expandPattern` -/

/-- Modelled from the spec: `GenericNameRegex` lives outside this file's
source (`framework/path.go`); the source's comment documents its shape:
`(?P<foo>\w(([\w-.]+)?\w)?)` for the name `foo`.  Only the text strictly
between the first `>` and the last `)` is consumed by `expandPattern`. -/
def GenericNameRegex (name : String) : String :=
  "(?P<" ++ name ++ ">\\w(([\\w-.]+)?\\w)?)"

/-- The embedded sub-expression removed by `expandPattern` before parsing,
computed exactly as the source does from `GenericNameRegex("")`. -/
def regexToRemove : List Char :=
  let base := (GenericNameRegex "").data
  match indexOfSub base ['>'], lastIndexOfSub base [')'] with
  | some start, some stop =>
    if start < stop then (base.take stop).drop (start + 1) else []
  | _, _ => []

/-- One pass of the optional-group expansion loop: the source iterates an
index `i` over a growing slice, rewriting `paths[i]` in place (keeping the
optional group, parentheses and `?` stripped) and appending the variant
without the group, then re-examining the same index.  `done` holds the
entries already left behind by the index, `pending` the entries at and after
it.  Fuel is statically bounded below; the measure
`2·Σ 3^(number of question marks) + |pending|` strictly decreases with each
step, so the generous fuel of `expandOptsFuel` is never exhausted on the
inputs the source meets. -/
def expandOptsAux : Nat → List (List Char) → List (List Char) → List (List Char)
  | _, done, [] => done
  | 0, done, pending => done ++ pending
  | fuel + 1, done, p :: rest =>
    match optReFind p with
    | some (pre, core, suf) =>
      expandOptsAux fuel done ((pre ++ core ++ suf) :: (rest ++ [pre ++ suf]))
    | none => expandOptsAux fuel (done ++ [p]) rest

/-- Fuel for `expandOptsAux`, in terms of the seed candidates. -/
def expandOptsFuel (paths : List (List Char)) : Nat :=
  2 * (paths.map (fun p => 3 ^ (p.filter (fun c => c = '?')).length)).sum
    + paths.length + 2

/-- The named-capture replacement stage: find all `reqdRe` matches of `path`,
then replace the first occurrence of each match text by `{capture}` in turn
(Go `strings.Replace(path, p[0], "{par}", 1)` inside the loop). -/
def replaceCaptures (path : List Char) : List Char :=
  (reqdFindAll path).foldl
    (fun acc m => replaceFirstSub acc m.1 ('{' :: m.2 ++ ['}'])) path

/-- `expandPattern` from the source: strip the `GenericNameRegex` inner text,
split on the first alternation group, expand optional groups, rewrite named
captures to `{name}` placeholders, and strip residual regex punctuation. -/
def expandPattern (pattern : String) : List String :=
  let l := replaceAllSub pattern.data regexToRemove []
  let paths :=
    match altReFind l with
    | some (g1, g2) => [g1, g2]
    | none => [l]
  let paths := expandOptsAux (expandOptsFuel paths) [] paths
  paths.map (fun p => String.mk (cleanChars (cleanSuffix (replaceCaptures p))))

/-! ### Pattern families for the capture-rewriting analysis

`expandPattern` is analysed on the family of patterns built by interleaving
capture-free segments with named capture constructs.  The following builders
and character predicates only *describe inputs*; all semantics above is the
source's. -/

/-- The text of one named capture construct `(?P<name>body)`. -/
def capTextChars (n b : List Char) : List Char :=
  '(' :: '?' :: 'P' :: '<' :: (n ++ '>' :: b ++ [')'])

/-- The placeholder `{name}` a capture is rewritten to. -/
def phChars (n : List Char) : List Char :=
  '{' :: n ++ ['}']

/-- A pattern interleaving a leading segment with capture constructs, each
followed by its trailing segment. -/
def mkPattern : List Char → List ((List Char × List Char) × List Char) → List Char
  | seg0, [] => seg0
  | seg0, ((n, b), sg) :: rest => seg0 ++ capTextChars n b ++ mkPattern sg rest

/-- The same interleaving with every capture construct replaced by its
placeholder. -/
def mkResult : List Char → List ((List Char × List Char) × List Char) → List Char
  | seg0, [] => seg0
  | seg0, ((n, _), sg) :: rest => seg0 ++ phChars n ++ mkResult sg rest

/-- Characters allowed in a capture-free segment: everything except the regex
punctuation the cleanup strips or the scanners react to. -/
def segCharOk (c : Char) : Bool :=
  ¬ (c = '(' ∨ c = ')' ∨ c = '|' ∨ c = '?' ∨ c = '\\' ∨ c = '^' ∨ c = '$')

/-- Characters allowed in a capture body: anything that does not close the
group, introduce an alternation, or collide with the removed
`GenericNameRegex` text (which begins with a backslash). -/
def bodyCharOk (c : Char) : Bool :=
  ¬ (c = ')' ∨ c = '|' ∨ c = '\\')

/-- No `)` immediately followed by `?` anywhere (the trigger of `optRe`). -/
def noCloseQ : List Char → Bool
  | [] => true
  | [_] => true
  | a :: b :: r => !(a = ')' ∧ b = '?') && noCloseQ (b :: r)

/-- Fuel consumed by the `reqdRe` scan on an interleaved pattern: one unit
per capture hit plus one per trailing-segment character. -/
def partsFuel : List ((List Char × List Char) × List Char) → Nat
  | [] => 0
  | ((_, _), sg) :: rest => 1 + sg.length + partsFuel rest

/-! ### Field and route data model -/

/-- The field-type enumeration, as enumerated by `convertType`'s cases
(`TypeInvalid` is the representative of the `default` branch). -/
inductive FieldType
  | typeString
  | typeNameString
  | typeLowerCaseString
  | typeInt
  | typeDurationSecond
  | typeBool
  | typeMap
  | typeKVPairs
  | typeSlice
  | typeStringSlice
  | typeCommaStringSlice
  | typeCommaIntSlice
  | typeHeader
  | typeInvalid
deriving DecidableEq

/-- `schemaType` from the source: target of `FieldType` conversions. -/
structure SchemaType where
  baseType : String
  items : String
  format : String
deriving DecidableEq

/-- `convertType` from the source.  The `default` branch's warning log is a
side effect outside the value model. -/
def convertType (t : FieldType) : SchemaType :=
  match t with
  | .typeString | .typeNameString | .typeHeader => ⟨"string", "", ""⟩
  | .typeLowerCaseString => ⟨"string", "", "lowercase"⟩
  | .typeInt => ⟨"number", "", ""⟩
  | .typeDurationSecond => ⟨"number", "", "seconds"⟩
  | .typeBool => ⟨"boolean", "", ""⟩
  | .typeMap => ⟨"object", "", "map"⟩
  | .typeKVPairs => ⟨"object", "", "kvpairs"⟩
  | .typeSlice => ⟨"array", "object", ""⟩
  | .typeStringSlice | .typeCommaStringSlice => ⟨"array", "string", ""⟩
  | .typeCommaIntSlice => ⟨"array", "number", ""⟩
  | .typeInvalid => ⟨"", "", "unknown"⟩

/-- Modelled from the spec: `framework.FieldSchema` (defined outside this
source file); `documentPath` reads its type, description and deprecated flag
(`Type` is a reserved word here, so the field is `FType`). -/
structure FieldSchema where
  FType : FieldType
  Description : String
  Deprecated : Bool
deriving DecidableEq

/-- Modelled from the spec: the verb kinds of `logical.Operation` that
`documentPath` distinguishes (create/read/update/delete/list, per the spec's
glossary); any other verb builds an operation that is assigned to no slot and
plays no role in the claims. -/
inductive Operation
  | create
  | read
  | update
  | delete
  | list
deriving DecidableEq

/-- Modelled from the spec: the payload of a `framework.RequestExample`
(`Data map[string]interface{}`), kept as an opaque association list.  A Go
interface value holding a map is non-nil even when the map is nil, so the
payload is always present. -/
structure RequestExample where
  Data : List (String × String)
deriving DecidableEq

/-- Modelled from the spec: `logical.Response`, the example payload handed to
`cleanResponse`; generation never inspects it beyond passing it to the
sanitizer, so an opaque carrier of the sanitized fields suffices. -/
structure LogicalResponse where
  Data : List (String × String)
  Redirect : String
  Warnings : List String
deriving DecidableEq

/-- `cleanedResponse` from the source: the sanitized copy whose empty optional
fields are omitted from serialization (structure mirrored on the carrier). -/
structure CleanedResponse where
  Data : List (String × String)
  Redirect : String
  Warnings : List String
deriving DecidableEq

/-- Modelled from the spec: `framework.Response`, one declared response
example group entry (description, media type, optional example payload). -/
structure RespExample where
  Description : String
  MediaType : String
  Example : Option LogicalResponse
deriving DecidableEq

/-- Modelled from the spec: `framework.OperationProperties` as read by
`documentPath` (summary, description, flags, request examples, and the
status-code-keyed response example groups). -/
structure OperationProperties where
  Summary : String
  Description : String
  Unpublished : Bool
  Deprecated : Bool
  Examples : List RequestExample
  Responses : List (String × List RespExample)

/-- Modelled from the spec: `logical.Paths`, the special-path lists. -/
structure LogicalPaths where
  Root : List String
  Unauthenticated : List String

/-- Modelled from the spec: `logical.BackendType` (unknown/logical/credential). -/
inductive BackendType
  | typeUnknown
  | typeLogical
  | typeCredential
deriving DecidableEq

/-- Modelled from the spec: `framework.Path` as read by `documentPath`: the
pattern, help synopsis, field map, and either the newer `Operations` map
(each handler represented by its `Properties()`) or the legacy `Callbacks`
map (represented by its key set, since only handler presence and the shared
help synopsis reach the output). -/
structure Path where
  Pattern : String
  HelpSynopsis : String
  Fields : List (String × FieldSchema)
  Callbacks : List Operation
  Operations : Option (Operation → Option OperationProperties)

/-- Modelled from the spec: the backend descriptor consumed by
`documentPaths` (ordered route collection, special paths, backend type). -/
structure Backend where
  Paths : List Path
  SpecialPaths : Option LogicalPaths
  backendType : BackendType

/-! ### OpenAPI output model -/

/-- The literal example attached to a schema (`oasSchema.Example
interface{}`): either a request example payload or a sanitized response. -/
inductive ExampleValue
  | reqData (d : List (String × String))
  | cleaned (c : CleanedResponse)

/-- `oasSchema` from the source.  Recursive (`Properties`, `Items`), hence an
inductive with one constructor: type, description, properties, items, format,
example, deprecated. -/
inductive OASSchema
  | mk (ty : String) (desc : String)
      (properties : List (String × OASSchema)) (items : Option OASSchema)
      (format : String) (ex : Option ExampleValue) (deprecated : Bool)

/-- `oasParameter` from the source (`in` is reserved, hence `In`). -/
structure OASParameter where
  Name : String
  Description : String
  In : String
  Schema : Option OASSchema
  Required : Bool
  Deprecated : Bool

/-- `oasMediaTypeObject` from the source. -/
structure OASMediaTypeObject where
  Schema : Option OASSchema

/-- `oasRequestBody` from the source (`oasContent` inlined as an association
list keyed by media type). -/
structure OASRequestBody where
  Description : String
  Content : List (String × OASMediaTypeObject)

/-- `oasResponse` from the source. -/
structure OASResponse where
  Description : String
  Content : List (String × OASMediaTypeObject)

/-- `OASOperation` from the source. -/
structure OASOperation where
  Summary : String
  Description : String
  Tags : List String
  Parameters : List OASParameter
  RequestBody : Option OASRequestBody
  Responses : List (String × OASResponse)
  Deprecated : Bool

/-- `oasPathItem` from the source. -/
structure OASPathItem where
  Description : String
  Parameters : List OASParameter
  Sudo : Bool
  Unauthenticated : Bool
  CreateSupported : Bool
  Get : Option OASOperation
  Post : Option OASOperation
  Delete : Option OASOperation

/-- `OASDocument`, restricted to its `Paths` map (the only part generation
touches; the constant version/info header is irrelevant to the claims). -/
structure OASDocument where
  Paths : List (String × OASPathItem)

/-- `oasStdRespOK` from the source. -/
def oasStdRespOK : OASResponse := ⟨"OK", []⟩

/-- `oasStdRespNoContent` from the source. -/
def oasStdRespNoContent : OASResponse := ⟨"empty body", []⟩

/-- The empty document (`NewOASDocument`'s path map). -/
def emptyDoc : OASDocument := ⟨[]⟩

/-! ### Association-list helpers (Go map operations) -/

/-- Go map lookup on an association list. -/
def lookupKey {α : Type} (l : List (String × α)) (k : String) : Option α :=
  (l.find? (fun p => p.1 = k)).map (·.2)

/-- Go map key-presence test (`_, ok := m[k]`). -/
def keyMem {α : Type} (l : List (String × α)) (k : String) : Bool :=
  (l.find? (fun p => p.1 = k)).isSome

/-- Go map assignment `m[k] = v` (overwrite or append). -/
def setPath (doc : OASDocument) (key : String) (item : OASPathItem) : OASDocument :=
  if keyMem doc.Paths key then
    ⟨doc.Paths.map (fun p => if p.1 = key then (key, item) else p)⟩
  else ⟨doc.Paths ++ [(key, item)]⟩

/-! ### `specialPathMatch` and `splitFields` -/

/-- `specialPathMatch` from the source: exact match, or prefix match against
an entry ending in the `*` wildcard. -/
def specialPathMatch (path : String) (specialPaths : List String) : Bool :=
  specialPaths.any (fun sp =>
    sp = path ∨ (sp.endsWith "*" ∧ (sp.dropRight 1).isPrefixOf path))

/-- All captures of `pathFieldsRe = {(\w+)}` in `s`, leftmost-first and
non-overlapping; one character is consumed per step, so `s.length` fuel
suffices. -/
def pathFieldsFindAllAux (fuel : Nat) (s : List Char) : List String :=
  match fuel, s with
  | _, [] => []
  | 0, _ => []
  | fuel + 1, '{' :: t =>
    let name := t.takeWhile isWordChar
    if name = [] then pathFieldsFindAllAux fuel t
    else
      match t.drop name.length with
      | '}' :: r => String.mk name :: pathFieldsFindAllAux fuel r
      | _ => pathFieldsFindAllAux fuel t
  | fuel + 1, _ :: t => pathFieldsFindAllAux fuel t

/-- All `{name}` placeholder names in `s`. -/
def pathFieldsFindAll (s : String) : List String :=
  pathFieldsFindAllAux s.data.length s.data

/-- `splitFields` from the source.  Every `{name}` placeholder is recorded in
the path group with the field map's entry for `name` — which is the nil
pointer (`none`) when the map has no such entry.  Header-typed fields always
join the path group; all remaining fields become body fields. -/
def splitFields (allFields : List (String × FieldSchema)) (pattern : String) :
    List (String × Option FieldSchema) × List (String × FieldSchema) :=
  let pathFields := (pathFieldsFindAll pattern).foldl
    (fun acc name =>
      if keyMem acc name then acc else acc ++ [(name, lookupKey allFields name)])
    []
  allFields.foldl
    (fun acc nf =>
      if keyMem acc.1 nf.1 then acc
      else if nf.2.FType = FieldType.typeHeader then (acc.1 ++ [(nf.1, some nf.2)], acc.2)
      else (acc.1, acc.2 ++ [nf]))
    (pathFields, [])

/-! ### Operation assembly -/

/-- Abnormal outcomes of a generation call: an error value returned by the
response sanitizer (Go `return err`), or the nil-pointer dereference runtime
panic that `documentPath` hits on a path field with no field definition. -/
inductive GenError
  | cleanErr (e : String)
  | nilDeref
deriving DecidableEq

/-- The path/header parameter group built from `splitFields`' path fields
(`documentPath`'s first parameter loop).  Dereferencing a `none` entry
(`field.Type` on a nil `*FieldSchema`) is the nil-pointer panic. -/
def buildPathParams (pathFields : List (String × Option FieldSchema)) :
    Except GenError (List OASParameter) :=
  pathFields.foldlM
    (fun acc nf =>
      match nf.2 with
      | none => Except.error GenError.nilDeref
      | some field =>
        let location := if field.FType = FieldType.typeHeader then "header" else "path"
        let required := decide (¬ field.FType = FieldType.typeHeader)
        let t := convertType field.FType
        Except.ok (acc ++ [{ Name := nf.1,
                             Description := cleanString field.Description,
                             In := location,
                             Schema := some (OASSchema.mk t.baseType "" [] none "" none false),
                             Required := required,
                             Deprecated := field.Deprecated }]))
    []

/-- ASCII lower-casing of one character (`strings.ToLower`, restricted to the
ASCII names appearing in routes). -/
def charLower (c : Char) : Char :=
  if 'A' ≤ c ∧ c ≤ 'Z' then Char.ofNat (c.toNat + 32) else c

/-- `strings.ToLower`, as a character list. -/
def lowerName (s : String) : List Char :=
  s.data.map charLower

/-- The comparison `strings.ToLower(pi.Parameters[i].Name) <
strings.ToLower(pi.Parameters[j].Name)` sorts parameters; the resulting order
is non-decreasing under this reflexive closure (lexicographic on the lowered
names). -/
def paramLe (a b : OASParameter) : Prop :=
  lowerName a.Name ≤ lowerName b.Name

instance : DecidableRel paramLe := fun a b =>
  inferInstanceAs (Decidable (lowerName a.Name ≤ lowerName b.Name))

instance : IsTotal OASParameter paramLe :=
  ⟨fun a b => le_total (lowerName a.Name) (lowerName b.Name)⟩

instance : IsTrans OASParameter paramLe :=
  ⟨fun _ _ _ => le_trans⟩

/-- The parameter sort (`sort.Slice` on the case-insensitive name comparison;
modelled with a stable insertion sort — Go leaves the order of
case-insensitively equal names unspecified). -/
def sortParams (l : List OASParameter) : List OASParameter :=
  l.insertionSort paramLe

/-- The `list` query parameter attached when a list handler shares the route. -/
def listQueryParam : OASParameter :=
  { Name := "list", Description := "Return a list if `true`", In := "query",
    Schema := some (OASSchema.mk "string" "" [] none "" none false),
    Required := false, Deprecated := false }

/-- One body-field property schema (the body loop of `documentPath`). -/
def bodyFieldSchema (f : FieldSchema) : OASSchema :=
  let t := convertType f.FType
  OASSchema.mk t.baseType (cleanString f.Description) []
    (if t.baseType = "array" then some (OASSchema.mk t.items "" [] none "" none false) else none)
    t.format none f.Deprecated

/-- The request body built for create/update operations: an `object` schema
over the body fields, with the first request example as literal example;
omitted entirely when it would carry neither properties nor example. -/
def buildRequestBody (props : OperationProperties)
    (bodyFields : List (String × FieldSchema)) : Option OASRequestBody :=
  let properties := bodyFields.map (fun nf => (nf.1, bodyFieldSchema nf.2))
  let ex : Option ExampleValue :=
    match props.Examples with
    | [] => none
    | e :: _ => some (ExampleValue.reqData e.Data)
  if properties.isEmpty = false ∨ ex.isSome then
    some { Description := "",
           Content := [("application/json",
             { Schema := some (OASSchema.mk "object" "" properties none "" ex false) })] }
  else none

/-- The content map of one status code: sanitize every non-nil example in
group order (a sanitizer failure aborts), defaulting the media type to
`application/json`; only the first example per media type is kept. -/
def buildContent (clean : LogicalResponse → Except String CleanedResponse)
    (resps : List RespExample) : Except String (List (String × OASMediaTypeObject)) :=
  resps.foldlM
    (fun content resp =>
      match resp.Example with
      | none => Except.ok content
      | some ex => do
        let mt := if resp.MediaType = "" then "application/json" else resp.MediaType
        let cr ← clean ex
        if keyMem content mt then pure content
        else pure (content ++ [(mt,
          { Schema := some (OASSchema.mk "" "" [] none "" (some (ExampleValue.cleaned cr)) false) })]))
    []

/-- The response map of one operation: a synthesized default (`204` for
delete, `200` otherwise) when no responses are declared; otherwise one entry
per declared status code, its description taken from the group's first entry. -/
def buildResponses (clean : LogicalResponse → Except String CleanedResponse)
    (isDelete : Bool) (rs : List (String × List RespExample)) :
    Except String (List (String × OASResponse)) :=
  let base : List (String × OASResponse) :=
    if rs.isEmpty then
      [(if isDelete then "204" else "200",
        if isDelete then oasStdRespNoContent else oasStdRespOK)]
    else []
  rs.foldlM
    (fun acc cr => do
      let d := match cr.2 with | [] => "" | r :: _ => r.Description
      let content ← buildContent clean cr.2
      pure (acc ++ [(cr.1, { Description := d, Content := content })]))
    base

/-- Assemble one verb's operation object (the body of `documentPath`'s verb
loop after the skip checks), parameterised by the sanitizer `clean` standing
for the external `cleanResponse`/`mapstructure.Decode`. -/
def buildOp (clean : LogicalResponse → Except String CleanedResponse)
    (v : Operation) (props : OperationProperties)
    (bodyFields : List (String × FieldSchema)) (listPresent : Bool)
    (bt : BackendType) : Except String OASOperation := do
  let responses ← buildResponses clean (v = Operation.delete) props.Responses
  pure { Summary := props.Summary,
         Description := props.Description,
         Tags := (match bt with
                  | BackendType.typeLogical => ["secrets"]
                  | BackendType.typeCredential => ["auth"]
                  | BackendType.typeUnknown => []),
         Parameters :=
           if v = Operation.list ∨ (v = Operation.read ∧ listPresent) then [listQueryParam]
           else [],
         RequestBody :=
           if v = Operation.create ∨ v = Operation.update then buildRequestBody props bodyFields
           else none,
         Responses := responses,
         Deprecated := props.Deprecated }

/-- The slot assignment switch: create/update → post, read/list → get,
delete → delete. -/
def setSlot (v : Operation) (op : OASOperation) (pi : OASPathItem) : OASPathItem :=
  match v with
  | Operation.create | Operation.update => { pi with Post := some op }
  | Operation.read | Operation.list => { pi with Get := some op }
  | Operation.delete => { pi with Delete := some op }

/-- State of the verb loop: the path item under construction, and the error
that aborted the loop, if any. -/
abbrev VerbState := OASPathItem × Option GenError

/-- One iteration of `documentPath`'s verb loop: skip unpublished handlers;
a create handler sets the create-supported flag and defers to an existing
update handler; a list handler defers to an existing read handler; otherwise
build the operation and assign its slot.  A sanitizer failure aborts the
loop (Go `return err`). -/
def processVerb (clean : LogicalResponse → Except String CleanedResponse)
    (ops : Operation → Option OperationProperties)
    (bodyFields : List (String × FieldSchema)) (bt : BackendType)
    (st : VerbState) (v : Operation) : VerbState :=
  match st with
  | (pi, some e) => (pi, some e)
  | (pi, none) =>
    match ops v with
    | none => (pi, none)
    | some props =>
      if props.Unpublished then (pi, none)
      else
        let pi := if v = Operation.create then { pi with CreateSupported := true } else pi
        if v = Operation.create ∧ (ops Operation.update).isSome then (pi, none)
        else if v = Operation.list ∧ (ops Operation.read).isSome then (pi, none)
        else
          match buildOp clean v props bodyFields (ops Operation.list).isSome bt with
          | Except.error e => (pi, some (GenError.cleanErr e))
          | Except.ok op => (setSlot v op pi, none)

/-- Whether verb `v`'s handler is present and published. -/
def pubPresent (ops : Operation → Option OperationProperties) (v : Operation) : Bool :=
  match ops v with
  | some props => !props.Unpublished
  | none => false

/-- Whether the verb loop builds an operation for `v`: present, published,
and not deferred by a merge rule (create defers to a present update handler,
list defers to a present read handler). -/
def buildsOp (ops : Operation → Option OperationProperties) (v : Operation) : Bool :=
  pubPresent ops v &&
    !(decide (v = Operation.create) && (ops Operation.update).isSome) &&
    !(decide (v = Operation.list) && (ops Operation.read).isSome)

/-- The operation `v` contributes to its slot (when it builds one and the
sanitizer succeeds). -/
def builtOp (clean : LogicalResponse → Except String CleanedResponse)
    (ops : Operation → Option OperationProperties)
    (bodyFields : List (String × FieldSchema)) (bt : BackendType)
    (v : Operation) : Option OASOperation :=
  if buildsOp ops v then
    match ops v with
    | some props => (buildOp clean v props bodyFields (ops Operation.list).isSome bt).toOption
    | none => none
  else none

/-- The loop-aborting error `v` contributes, if any. -/
def stepErr (clean : LogicalResponse → Except String CleanedResponse)
    (ops : Operation → Option OperationProperties)
    (bodyFields : List (String × FieldSchema)) (bt : BackendType)
    (v : Operation) : Option GenError :=
  if buildsOp ops v then
    match ops v with
    | some props =>
      match buildOp clean v props bodyFields (ops Operation.list).isSome bt with
      | Except.error e => some (GenError.cleanErr e)
      | Except.ok _ => none
    | none => none
  else none

/-- Whether `v` sets the create-supported flag. -/
def flagW (ops : Operation → Option OperationProperties) (v : Operation) : Bool :=
  decide (v = Operation.create) && pubPresent ops v

/-- The value `v` writes into the post slot, if any. -/
def postW (clean : LogicalResponse → Except String CleanedResponse)
    (ops : Operation → Option OperationProperties)
    (bodyFields : List (String × FieldSchema)) (bt : BackendType)
    (v : Operation) : Option OASOperation :=
  if v = Operation.create ∨ v = Operation.update then builtOp clean ops bodyFields bt v
  else none

/-- The value `v` writes into the get slot, if any. -/
def getW (clean : LogicalResponse → Except String CleanedResponse)
    (ops : Operation → Option OperationProperties)
    (bodyFields : List (String × FieldSchema)) (bt : BackendType)
    (v : Operation) : Option OASOperation :=
  if v = Operation.read ∨ v = Operation.list then builtOp clean ops bodyFields bt v
  else none

/-- The value `v` writes into the delete slot, if any. -/
def delW (clean : LogicalResponse → Except String CleanedResponse)
    (ops : Operation → Option OperationProperties)
    (bodyFields : List (String × FieldSchema)) (bt : BackendType)
    (v : Operation) : Option OASOperation :=
  if v = Operation.delete then builtOp clean ops bodyFields bt v
  else none

/-- The effect of one successful loop iteration on the path item. -/
def stepPI (clean : LogicalResponse → Except String CleanedResponse)
    (ops : Operation → Option OperationProperties)
    (bodyFields : List (String × FieldSchema)) (bt : BackendType)
    (v : Operation) (pi : OASPathItem) : OASPathItem :=
  { pi with CreateSupported := pi.CreateSupported || flagW ops v,
            Post := (postW clean ops bodyFields bt v).or pi.Post,
            Get := (getW clean ops bodyFields bt v).or pi.Get,
            Delete := (delW clean ops bodyFields bt v).or pi.Delete }

/-- The five verb kinds; a Go map iteration visits each present key exactly
once in unspecified order, modelled as a fold over a permutation of this
list (absent verbs are skipped by `processVerb`). -/
def allVerbs : List Operation :=
  [Operation.create, Operation.read, Operation.update, Operation.delete, Operation.list]

/-- Resolve the verb→handler set: the explicit `Operations` map when defined,
else handlers synthesized from the legacy `Callbacks` map, reusing the
route's help synopsis as each summary. -/
def resolveOperations (p : Path) : Operation → Option OperationProperties :=
  match p.Operations with
  | some ops => ops
  | none => fun v =>
    if v ∈ p.Callbacks then
      some { Summary := p.HelpSynopsis, Description := "", Unpublished := false,
             Deprecated := false, Examples := [], Responses := [] }
    else none

/-- The top-level path item as initialised before the verb loop: help text
as description, the sorted parameter group, and the special-path flags. -/
def initialPathItem (p : Path) (sudoPaths unauthPaths : List String) (path : String)
    (params : List OASParameter) : OASPathItem :=
  { Description := cleanString p.HelpSynopsis,
    Parameters := sortParams params,
    Sudo := specialPathMatch path sudoPaths,
    Unauthenticated := specialPathMatch path unauthPaths,
    CreateSupported := false, Get := none, Post := none, Delete := none }

/-- Process one expanded path (`documentPath`'s outer loop body): classify
fields, build and sort the parameter group, run the verb loop, and insert the
finished path item; a failure anywhere aborts the whole call. -/
def docPathStep (clean : LogicalResponse → Except String CleanedResponse)
    (verbOrder : List Operation) (p : Path)
    (sudoPaths unauthPaths : List String) (bt : BackendType)
    (st : OASDocument × Option GenError) (path : String) :
    OASDocument × Option GenError :=
  match st with
  | (d, some e) => (d, some e)
  | (d, none) =>
    let operations := resolveOperations p
    let fieldGroups := splitFields p.Fields path
    match buildPathParams fieldGroups.1 with
    | Except.error e => (d, some e)
    | Except.ok params =>
      match verbOrder.foldl (processVerb clean operations fieldGroups.2 bt)
          (initialPathItem p sudoPaths unauthPaths path params, none) with
      | (pi, none) => (setPath d ("/" ++ path) pi, none)
      | (_, some e) => (d, some e)

/-- The sudo special-path list (`specialPaths.Root` behind the nil check). -/
def sudoOf (specialPaths : Option LogicalPaths) : List String :=
  match specialPaths with
  | some sp => sp.Root
  | none => []

/-- The unauthenticated special-path list behind the nil check. -/
def unauthOf (specialPaths : Option LogicalPaths) : List String :=
  match specialPaths with
  | some sp => sp.Unauthenticated
  | none => []

/-- `documentPath` from the source, parameterised by the sanitizer `clean`
and the verb iteration order `verbOrder`.  Returns the mutated document and
the abnormal outcome, if any (partial mutations persist, as with Go's
in-place mutation of `doc`). -/
def documentPath (clean : LogicalResponse → Except String CleanedResponse)
    (verbOrder : List Operation) (p : Path) (specialPaths : Option LogicalPaths)
    (backendType : BackendType) (doc : OASDocument) : OASDocument × Option GenError :=
  (expandPattern p.Pattern).foldl
    (docPathStep clean verbOrder p (sudoOf specialPaths) (unauthOf specialPaths) backendType)
    (doc, none)

/-- One route of `documentPaths`' loop: document the route unless an earlier
route already failed (Go's `return err` leaves the remaining routes
unprocessed). -/
def docPathsStep (clean : LogicalResponse → Except String CleanedResponse)
    (verbOrder : List Operation) (sp : Option LogicalPaths) (bt : BackendType)
    (st : OASDocument × Option GenError) (p : Path) : OASDocument × Option GenError :=
  match st with
  | (d, some e) => (d, some e)
  | (d, none) => documentPath clean verbOrder p sp bt d

/-- `documentPaths` from the source: document every route of the backend in
order, aborting at the first route that fails. -/
def documentPaths (clean : LogicalResponse → Except String CleanedResponse)
    (verbOrder : List Operation) (backend : Backend) (doc : OASDocument) :
    OASDocument × Option GenError :=
  backend.Paths.foldl
    (docPathsStep clean verbOrder backend.SpecialPaths backend.backendType)
    (doc, none)

/-- A sanitizer that always succeeds (a structurally well-behaved
`mapstructure.Decode`). -/
def cleanOk : LogicalResponse → Except String CleanedResponse :=
  fun r => Except.ok ⟨r.Data, r.Redirect, r.Warnings⟩

/-- A sanitizer that always fails with a structural-copy error. -/
def cleanFail : LogicalResponse → Except String CleanedResponse :=
  fun _ => Except.error "structural copy failed"

/-- The observable part of a verb-loop state: the path item when no error has
occurred (an errored loop discards its partial item — the path is never
inserted), and nothing otherwise. -/
def stProj (st : VerbState) : Option OASPathItem :=
  match st.2 with
  | none => some st.1
  | some _ => none

/-- The observable relation between two generation outcomes: identical
document contents, and agreement on whether the call aborted. -/
def docRel (r1 r2 : OASDocument × Option GenError) : Prop :=
  r1.1 = r2.1 ∧ r1.2.isSome = r2.2.isSome

/-- The verb→handler map with verb `v` deleted. -/
def removeVerb (ops : Operation → Option OperationProperties) (v : Operation) :
    Operation → Option OperationProperties :=
  fun w => if w = v then none else ops w

/-- The route with verb `v`'s handler deleted from its resolved handler set
(everything else unchanged). -/
def withoutVerb (p : Path) (v : Operation) : Path :=
  { p with Operations := some (removeVerb (resolveOperations p) v) }

/-- The pure effect of the verb loop on the path item, with the error channel
stripped (coincides with the loop whenever no iteration aborts). -/
def piFold (clean : LogicalResponse → Except String CleanedResponse)
    (ops : Operation → Option OperationProperties)
    (bf : List (String × FieldSchema)) (bt : BackendType)
    (vo : List Operation) (pi : OASPathItem) : OASPathItem :=
  vo.foldl (fun pi v => stepPI clean ops bf bt v pi) pi

/-! ### Concrete fixtures used by witnesses and counterexamples -/

/-- A published create handler's properties. -/
def propsPub : OperationProperties :=
  { Summary := "create summary", Description := "create description",
    Unpublished := false, Deprecated := false, Examples := [], Responses := [] }

/-- A second set of published handler properties. -/
def propsPub2 : OperationProperties :=
  { Summary := "update summary", Description := "update description",
    Unpublished := false, Deprecated := false, Examples := [], Responses := [] }

/-- An unpublished handler's properties. -/
def propsUnpub : OperationProperties :=
  { Summary := "unpublished summary", Description := "",
    Unpublished := true, Deprecated := false, Examples := [], Responses := [] }

/-- A single-path route with the given verb→handler map. -/
def routeWith (ops : Operation → Option OperationProperties) : Path :=
  { Pattern := "x", HelpSynopsis := "h", Fields := [], Callbacks := [],
    Operations := some ops }

/-- Published create alongside an unpublished update handler. -/
def opsCreatePubUpdateUnpub : Operation → Option OperationProperties
  | Operation.create => some propsPub
  | Operation.update => some propsUnpub
  | _ => none

/-- The same route with the unpublished update handler absent. -/
def opsCreatePub : Operation → Option OperationProperties
  | Operation.create => some propsPub
  | _ => none

/-- The per-path outcome of `docPathStep` from an error-free state: the
finished path item, or `none` when the parameter loop panics or the verb
loop aborts. -/
def pathOutcomePI (clean : LogicalResponse → Except String CleanedResponse)
    (vo : List Operation) (p : Path) (sp : Option LogicalPaths) (bt : BackendType)
    (path : String) : Option OASPathItem :=
  match buildPathParams (splitFields p.Fields path).1 with
  | Except.error _ => none
  | Except.ok params =>
    match vo.foldl (processVerb clean (resolveOperations p) (splitFields p.Fields path).2 bt)
        (initialPathItem p (sudoOf sp) (unauthOf sp) path params, none) with
    | (pi, none) => some pi
    | (_, some _) => none

/-- Published create and update handlers together. -/
def opsCreateUpdatePub : Operation → Option OperationProperties
  | Operation.create => some propsPub
  | Operation.update => some propsPub2
  | _ => none

/-- Published read and list handlers together. -/
def opsReadListPub : Operation → Option OperationProperties
  | Operation.read => some propsPub
  | Operation.list => some propsPub2
  | _ => none

/-- An unpublished delete handler alongside a published read handler. -/
def opsDelUnpubReadPub : Operation → Option OperationProperties
  | Operation.delete => some propsUnpub
  | Operation.read => some propsPub
  | _ => none

/-- A published read handler declaring one response example (so the sanitizer
actually runs on it). -/
def propsWithRespExample : OperationProperties :=
  { Summary := "read with example", Description := "", Unpublished := false,
    Deprecated := false, Examples := [],
    Responses := [("200", [{ Description := "ok", MediaType := "",
                             Example := some ⟨[], "", []⟩ }])] }

/-- A handler set whose only verb declares a response example. -/
def opsReadWithExample : Operation → Option OperationProperties
  | Operation.read => some propsWithRespExample
  | _ => none

/-- A backend whose first route triggers the sanitizer and whose second route
would document cleanly — used to observe abort-before-remaining-routes. -/
def failingBackend : Backend :=
  { Paths := [routeWith opsReadWithExample, routeWith opsCreatePub],
    SpecialPaths := none, backendType := BackendType.typeLogical }

/-- A route with two header fields named `Zeta` and `alpha`. -/
def zetaAlphaRoute : Path :=
  { Pattern := "x", HelpSynopsis := "h",
    Fields := [("Zeta", ⟨FieldType.typeHeader, "", false⟩),
               ("alpha", ⟨FieldType.typeHeader, "", false⟩)],
    Callbacks := [], Operations := some (fun _ => none) }

/-! ## Theorems -/

/-- C10: `expandPattern("(leases/)?renew")` returns exactly the set of paths
`{"renew", "leases/renew"}`. -/
theorem c10_expandPattern_leases_renew :
    ∀ s, s ∈ expandPattern "(leases/)?renew" ↔ (s = "renew" ∨ s = "leases/renew") := by
  intro s
  have h : expandPattern "(leases/)?renew" = ["leases/renew", "renew"] := by decide
  rw [h]
  constructor
  · intro hm
    rcases List.mem_cons.mp hm with h1 | h1
    · exact Or.inr h1
    · exact Or.inl (List.mem_singleton.mp h1)
  · rintro (h1 | h1)
    · exact List.mem_cons_of_mem _ (h1 ▸ List.mem_singleton_self _)
    · exact h1 ▸ List.mem_cons_self _ _

/-- C1 counterexample: on the input pattern `raw/?$|raw/(?P<path>.+)` exactly as
the claim states it (without a surrounding parenthesis pair), `altRe` finds no
alternation group — the pattern's only `(` is not followed by any `|` — so
`expandPattern` returns the single path `raw/|raw/{path}`; in particular the
claimed path `raw` is not among the results. -/
theorem c1_counterexample :
    expandPattern "raw/?$|raw/(?P<path>.+)" = ["raw/|raw/{path}"] ∧
      ¬ ("raw" ∈ expandPattern "raw/?$|raw/(?P<path>.+)") := by
  constructor
  · decide
  · decide

/-- C1 amended: for the parenthesized input pattern `(raw/?$|raw/(?P<path>.+))`
(the alternation form documented at `altRe`'s definition in the source),
`expandPattern` returns exactly the set of paths `{"raw", "raw/{path}"}` after
cleanup. -/
theorem c1_expandPattern_raw_alternation :
    ∀ s, s ∈ expandPattern "(raw/?$|raw/(?P<path>.+))" ↔
      (s = "raw" ∨ s = "raw/{path}") := by
  intro s
  have h : expandPattern "(raw/?$|raw/(?P<path>.+))" = ["raw", "raw/{path}"] := by decide
  rw [h]
  constructor
  · intro hm
    rcases List.mem_cons.mp hm with h1 | h1
    · exact Or.inl h1
    · exact Or.inr (List.mem_singleton.mp h1)
  · rintro (h1 | h1)
    · exact h1 ▸ List.mem_cons_self _ _
    · exact List.mem_cons_of_mem _ (h1 ▸ List.mem_singleton_self _)

/-- C3: the first half of the claim holds of `splitFields` — a `{name}`
placeholder with no entry in the field map is recorded as a path field with an
absent (`none`, Go nil) schema — but `documentPath` then dereferences that nil
`*FieldSchema` (`field.Type`) and aborts abnormally with a nil-pointer panic
instead of completing: on the route `test/(?P<id>.+)` with an empty field map,
generation ends in the nil-dereference outcome and publishes no path. -/
theorem c3_unmatched_placeholder_panics :
    splitFields ([] : List (String × FieldSchema)) "test/{id}" = ([("id", none)], []) ∧
    documentPath cleanOk allVerbs
        { Pattern := "test/(?P<id>.+)", HelpSynopsis := "h", Fields := [], Callbacks := [],
          Operations := some (fun _ => none) } none BackendType.typeUnknown emptyDoc
      = (emptyDoc, some GenError.nilDeref) :=
  ⟨by decide, rfl⟩

/-- C2 counterexample: on a route with a published create handler and an
unpublished update handler, the create handler produces no post operation —
the create branch consults the update handler's presence regardless of its
unpublished flag — while deleting the unpublished update handler from the
route makes the same create handler produce a post operation.  The sibling
verb is therefore affected by the unpublished handler's presence. -/
theorem c2_counterexample :
    ((lookupKey (documentPath cleanOk allVerbs (routeWith opsCreatePubUpdateUnpub) none
        BackendType.typeUnknown emptyDoc).1.Paths "/x").map (fun i => i.Post.isSome)
      = some false) ∧
    ((lookupKey (documentPath cleanOk allVerbs (routeWith opsCreatePub) none
        BackendType.typeUnknown emptyDoc).1.Paths "/x").map (fun i => i.Post.isSome)
      = some true) :=
  ⟨rfl, rfl⟩

/-- Characterization of one successful verb-loop iteration: the path item
receives the flag and slot contributions of `v`, and the loop error is `v`'s
sanitizer failure, if any. -/
theorem processVerb_ok (clean : LogicalResponse → Except String CleanedResponse)
    (ops : Operation → Option OperationProperties)
    (bf : List (String × FieldSchema)) (bt : BackendType)
    (pi : OASPathItem) (v : Operation) :
    processVerb clean ops bf bt (pi, none) v
      = (stepPI clean ops bf bt v pi, stepErr clean ops bf bt v) := by
  cases v
  case create =>
    cases hov : ops Operation.create with
    | none =>
      simp [processVerb, hov, stepPI, stepErr, flagW, postW, getW, delW, builtOp, buildsOp,
        pubPresent, Option.or]
    | some props =>
      by_cases hu : props.Unpublished
      · simp [processVerb, hov, hu, stepPI, stepErr, flagW, postW, getW, delW, builtOp,
          buildsOp, pubPresent, Option.or]
      · by_cases hupd : (ops Operation.update).isSome
        · simp [processVerb, hov, hu, hupd, stepPI, stepErr, flagW, postW, getW, delW,
            builtOp, buildsOp, pubPresent, Option.or]
        · cases hb : buildOp clean Operation.create props bf (ops Operation.list).isSome bt with
          | error e =>
            simp [processVerb, hov, hu, hupd, hb, stepPI, stepErr, flagW, postW, getW, delW,
              builtOp, buildsOp, pubPresent, Except.toOption, Option.or]
          | ok op =>
            simp [processVerb, hov, hu, hupd, hb, setSlot, stepPI, stepErr, flagW, postW,
              getW, delW, builtOp, buildsOp, pubPresent, Except.toOption, Option.or]
  case read =>
    cases hov : ops Operation.read with
    | none =>
      simp [processVerb, hov, stepPI, stepErr, flagW, postW, getW, delW, builtOp, buildsOp,
        pubPresent, Option.or]
    | some props =>
      by_cases hu : props.Unpublished
      · simp [processVerb, hov, hu, stepPI, stepErr, flagW, postW, getW, delW, builtOp,
          buildsOp, pubPresent, Option.or]
      · cases hb : buildOp clean Operation.read props bf (ops Operation.list).isSome bt with
        | error e =>
          simp [processVerb, hov, hu, hb, stepPI, stepErr, flagW, postW, getW, delW,
            builtOp, buildsOp, pubPresent, Except.toOption, Option.or]
        | ok op =>
          simp [processVerb, hov, hu, hb, setSlot, stepPI, stepErr, flagW, postW, getW,
            delW, builtOp, buildsOp, pubPresent, Except.toOption, Option.or]
  case update =>
    cases hov : ops Operation.update with
    | none =>
      simp [processVerb, hov, stepPI, stepErr, flagW, postW, getW, delW, builtOp, buildsOp,
        pubPresent, Option.or]
    | some props =>
      by_cases hu : props.Unpublished
      · simp [processVerb, hov, hu, stepPI, stepErr, flagW, postW, getW, delW, builtOp,
          buildsOp, pubPresent, Option.or]
      · cases hb : buildOp clean Operation.update props bf (ops Operation.list).isSome bt with
        | error e =>
          simp [processVerb, hov, hu, hb, stepPI, stepErr, flagW, postW, getW, delW,
            builtOp, buildsOp, pubPresent, Except.toOption, Option.or]
        | ok op =>
          simp [processVerb, hov, hu, hb, setSlot, stepPI, stepErr, flagW, postW, getW,
            delW, builtOp, buildsOp, pubPresent, Except.toOption, Option.or]
  case delete =>
    cases hov : ops Operation.delete with
    | none =>
      simp [processVerb, hov, stepPI, stepErr, flagW, postW, getW, delW, builtOp, buildsOp,
        pubPresent, Option.or]
    | some props =>
      by_cases hu : props.Unpublished
      · simp [processVerb, hov, hu, stepPI, stepErr, flagW, postW, getW, delW, builtOp,
          buildsOp, pubPresent, Option.or]
      · cases hb : buildOp clean Operation.delete props bf (ops Operation.list).isSome bt with
        | error e =>
          simp [processVerb, hov, hu, hb, stepPI, stepErr, flagW, postW, getW, delW,
            builtOp, buildsOp, pubPresent, Except.toOption, Option.or]
        | ok op =>
          simp [processVerb, hov, hu, hb, setSlot, stepPI, stepErr, flagW, postW, getW,
            delW, builtOp, buildsOp, pubPresent, Except.toOption, Option.or]
  case list =>
    cases hov : ops Operation.list with
    | none =>
      simp [processVerb, hov, stepPI, stepErr, flagW, postW, getW, delW, builtOp, buildsOp,
        pubPresent, Option.or]
    | some props =>
      by_cases hu : props.Unpublished
      · simp [processVerb, hov, hu, stepPI, stepErr, flagW, postW, getW, delW, builtOp,
          buildsOp, pubPresent, Option.or]
      · by_cases hrd : (ops Operation.read).isSome
        · simp [processVerb, hov, hu, hrd, stepPI, stepErr, flagW, postW, getW, delW,
            builtOp, buildsOp, pubPresent, Option.or]
        · cases hb : buildOp clean Operation.list props bf true bt with
          | error e =>
            simp [processVerb, hov, hu, hrd, hb, stepPI, stepErr, flagW, postW, getW, delW,
              builtOp, buildsOp, pubPresent, Except.toOption, Option.or]
          | ok op =>
            simp [processVerb, hov, hu, hrd, hb, setSlot, stepPI, stepErr, flagW, postW,
              getW, delW, builtOp, buildsOp, pubPresent, Except.toOption, Option.or]

/-- An iteration starting from an errored state is the identity (Go returned
from the loop already). -/
theorem processVerb_err (clean : LogicalResponse → Except String CleanedResponse)
    (ops : Operation → Option OperationProperties)
    (bf : List (String × FieldSchema)) (bt : BackendType)
    (pi : OASPathItem) (e : GenError) (v : Operation) :
    processVerb clean ops bf bt (pi, some e) v = (pi, some e) := rfl

/-- The whole verb loop is the identity on an errored state. -/
theorem foldl_processVerb_err (clean : LogicalResponse → Except String CleanedResponse)
    (ops : Operation → Option OperationProperties)
    (bf : List (String × FieldSchema)) (bt : BackendType)
    (vo : List Operation) (pi : OASPathItem) (e : GenError) :
    vo.foldl (processVerb clean ops bf bt) (pi, some e) = (pi, some e) := by
  induction vo with
  | nil => rfl
  | cons w rest ih => simpa [List.foldl_cons, processVerb_err] using ih

/-- `stepPI` does not touch the parameter group. -/
theorem stepPI_Parameters (clean : LogicalResponse → Except String CleanedResponse)
    (ops : Operation → Option OperationProperties)
    (bf : List (String × FieldSchema)) (bt : BackendType) (v : Operation)
    (pi : OASPathItem) : (stepPI clean ops bf bt v pi).Parameters = pi.Parameters := rfl

/-- A contributed operation implies the verb builds one. -/
theorem builtOp_buildsOp (clean : LogicalResponse → Except String CleanedResponse)
    (ops : Operation → Option OperationProperties)
    (bf : List (String × FieldSchema)) (bt : BackendType) (v : Operation)
    (h : (builtOp clean ops bf bt v).isSome) : buildsOp ops v = true := by
  by_cases hb : buildsOp ops v = true
  · exact hb
  · simp [builtOp, hb] at h

/-- Building implies present and published. -/
theorem buildsOp_pubPresent (ops : Operation → Option OperationProperties) (v : Operation)
    (h : buildsOp ops v = true) : pubPresent ops v = true := by
  simp only [buildsOp, Bool.and_eq_true] at h
  exact h.1.1

/-- Present-and-published implies the handler exists. -/
theorem pubPresent_isSome (ops : Operation → Option OperationProperties) (v : Operation)
    (h : pubPresent ops v = true) : (ops v).isSome := by
  cases hov : ops v with
  | none => simp [pubPresent, hov] at h
  | some props => simp

/-- A create handler builds only when no update handler exists. -/
theorem buildsOp_create_no_update (ops : Operation → Option OperationProperties)
    (h : buildsOp ops Operation.create = true) : (ops Operation.update).isSome = false := by
  simp only [buildsOp, Bool.and_eq_true, Bool.not_eq_true', Bool.and_eq_false_iff] at h
  rcases h.1.2 with h' | h'
  · simp at h'
  · exact h'

/-- A list handler builds only when no read handler exists. -/
theorem buildsOp_list_no_read (ops : Operation → Option OperationProperties)
    (h : buildsOp ops Operation.list = true) : (ops Operation.read).isSome = false := by
  simp only [buildsOp, Bool.and_eq_true, Bool.not_eq_true', Bool.and_eq_false_iff] at h
  rcases h.2 with h' | h'
  · simp at h'
  · exact h'

/-- Two distinct verbs never both write the post slot: only create and update
write it, and a building create excludes a present update. -/
theorem postW_incompat (clean : LogicalResponse → Except String CleanedResponse)
    (ops : Operation → Option OperationProperties)
    (bf : List (String × FieldSchema)) (bt : BackendType) (a b : Operation)
    (ha : (postW clean ops bf bt a).isSome) (hb : (postW clean ops bf bt b).isSome) :
    a = b := by
  have hmem : ∀ v, (postW clean ops bf bt v).isSome →
      (v = Operation.create ∨ v = Operation.update) ∧ (builtOp clean ops bf bt v).isSome := by
    intro v hv
    by_cases hc : v = Operation.create ∨ v = Operation.update
    · refine ⟨hc, ?_⟩
      simpa [postW, hc] using hv
    · simp [postW, hc] at hv
  obtain ⟨hca, hba⟩ := hmem a ha
  obtain ⟨hcb, hbb⟩ := hmem b hb
  have hnc : ¬ ((builtOp clean ops bf bt Operation.create).isSome ∧
      (builtOp clean ops bf bt Operation.update).isSome) := by
    rintro ⟨h1, h2⟩
    have hno := buildsOp_create_no_update ops (builtOp_buildsOp _ _ _ _ _ h1)
    have hyes := pubPresent_isSome ops Operation.update
      (buildsOp_pubPresent ops Operation.update (builtOp_buildsOp _ _ _ _ _ h2))
    rw [hno] at hyes
    exact absurd hyes (by simp)
  rcases hca with rfl | rfl <;> rcases hcb with rfl | rfl
  · rfl
  · exact absurd ⟨hba, hbb⟩ hnc
  · exact absurd ⟨hbb, hba⟩ hnc
  · rfl

/-- Two distinct verbs never both write the get slot. -/
theorem getW_incompat (clean : LogicalResponse → Except String CleanedResponse)
    (ops : Operation → Option OperationProperties)
    (bf : List (String × FieldSchema)) (bt : BackendType) (a b : Operation)
    (ha : (getW clean ops bf bt a).isSome) (hb : (getW clean ops bf bt b).isSome) :
    a = b := by
  have hmem : ∀ v, (getW clean ops bf bt v).isSome →
      (v = Operation.read ∨ v = Operation.list) ∧ (builtOp clean ops bf bt v).isSome := by
    intro v hv
    by_cases hc : v = Operation.read ∨ v = Operation.list
    · refine ⟨hc, ?_⟩
      simpa [getW, hc] using hv
    · simp [getW, hc] at hv
  obtain ⟨hca, hba⟩ := hmem a ha
  obtain ⟨hcb, hbb⟩ := hmem b hb
  have hnc : ¬ ((getW clean ops bf bt Operation.read).isSome ∧
      (getW clean ops bf bt Operation.list).isSome) := by
    rintro ⟨h1, h2⟩
    have h1' : (builtOp clean ops bf bt Operation.read).isSome := by
      simpa [getW] using h1
    have h2' : (builtOp clean ops bf bt Operation.list).isSome := by
      simpa [getW] using h2
    have hno := buildsOp_list_no_read ops (builtOp_buildsOp _ _ _ _ _ h2')
    have hyes := pubPresent_isSome ops Operation.read
      (buildsOp_pubPresent ops Operation.read (builtOp_buildsOp _ _ _ _ _ h1'))
    rw [hno] at hyes
    exact absurd hyes (by simp)
  rcases hca with rfl | rfl <;> rcases hcb with rfl | rfl
  · rfl
  · exact absurd ⟨ha, hb⟩ hnc
  · exact absurd ⟨hb, ha⟩ hnc
  · rfl

/-- Only delete writes the delete slot. -/
theorem delW_incompat (clean : LogicalResponse → Except String CleanedResponse)
    (ops : Operation → Option OperationProperties)
    (bf : List (String × FieldSchema)) (bt : BackendType) (a b : Operation)
    (ha : (delW clean ops bf bt a).isSome) (hb : (delW clean ops bf bt b).isSome) :
    a = b := by
  have hmem : ∀ v, (delW clean ops bf bt v).isSome → v = Operation.delete := by
    intro v hv
    by_cases hc : v = Operation.delete
    · exact hc
    · simp [delW, hc] at hv
  rw [hmem a ha, hmem b hb]

/-- Option overwrite (`Option.or`) commutes when the two writes cannot both
be present. -/
theorem or_or_comm_of_incompat {α : Type} (x y p : Option α)
    (h : x.isSome → y.isSome → False) : x.or (y.or p) = y.or (x.or p) := by
  cases x with
  | none => rfl
  | some a =>
    cases y with
    | none => rfl
    | some b => exact (h (by simp) (by simp)).elim

/-- Two successful iterations for different verbs commute on the path item. -/
theorem stepPI_comm (clean : LogicalResponse → Except String CleanedResponse)
    (ops : Operation → Option OperationProperties)
    (bf : List (String × FieldSchema)) (bt : BackendType) (a b : Operation)
    (pi : OASPathItem) :
    stepPI clean ops bf bt a (stepPI clean ops bf bt b pi)
      = stepPI clean ops bf bt b (stepPI clean ops bf bt a pi) := by
  by_cases hab : a = b
  · rw [hab]
  · simp only [stepPI, OASPathItem.mk.injEq]
    refine ⟨trivial, trivial, trivial, trivial, ?_, ?_, ?_, ?_⟩
    · cases pi.CreateSupported <;> cases hfa : flagW ops a <;> cases hfb : flagW ops b <;> rfl
    · exact or_or_comm_of_incompat _ _ _
        (fun h1 h2 => hab (getW_incompat clean ops bf bt a b h1 h2))
    · exact or_or_comm_of_incompat _ _ _
        (fun h1 h2 => hab (postW_incompat clean ops bf bt a b h1 h2))
    · exact or_or_comm_of_incompat _ _ _
        (fun h1 h2 => hab (delW_incompat clean ops bf bt a b h1 h2))

/-- `stProj` congruence: one loop iteration preserves observable equality of
states. -/
theorem stProj_processVerb_congr (clean : LogicalResponse → Except String CleanedResponse)
    (ops : Operation → Option OperationProperties)
    (bf : List (String × FieldSchema)) (bt : BackendType)
    (st1 st2 : VerbState) (v : Operation) (h : stProj st1 = stProj st2) :
    stProj (processVerb clean ops bf bt st1 v) = stProj (processVerb clean ops bf bt st2 v) := by
  obtain ⟨pi1, e1⟩ := st1
  obtain ⟨pi2, e2⟩ := st2
  cases e1 with
  | some e =>
    cases e2 with
    | some e' => simp [processVerb_err, stProj]
    | none => simp [stProj] at h
  | none =>
    cases e2 with
    | some e' => simp [stProj] at h
    | none =>
      simp only [stProj] at h
      obtain rfl : pi1 = pi2 := Option.some.inj h
      rfl

/-- `stProj` congruence for the whole loop. -/
theorem stProj_verbFold_congr (clean : LogicalResponse → Except String CleanedResponse)
    (ops : Operation → Option OperationProperties)
    (bf : List (String × FieldSchema)) (bt : BackendType) :
    ∀ (vo : List Operation) (st1 st2 : VerbState), stProj st1 = stProj st2 →
      stProj (vo.foldl (processVerb clean ops bf bt) st1)
        = stProj (vo.foldl (processVerb clean ops bf bt) st2)
  | [], _, _, h => h
  | w :: rest, st1, st2, h =>
    stProj_verbFold_congr clean ops bf bt rest _ _
      (stProj_processVerb_congr clean ops bf bt st1 st2 w h)

/-- Two adjacent loop iterations commute up to the observable state. -/
theorem stProj_swap (clean : LogicalResponse → Except String CleanedResponse)
    (ops : Operation → Option OperationProperties)
    (bf : List (String × FieldSchema)) (bt : BackendType)
    (st : VerbState) (v w : Operation) :
    stProj (processVerb clean ops bf bt (processVerb clean ops bf bt st v) w)
      = stProj (processVerb clean ops bf bt (processVerb clean ops bf bt st w) v) := by
  obtain ⟨pi, e⟩ := st
  cases e with
  | some e => rfl
  | none =>
    simp only [processVerb_ok]
    cases hev : stepErr clean ops bf bt v with
    | some e =>
      cases hew : stepErr clean ops bf bt w with
      | some e' => simp [processVerb_err, stProj]
      | none => simp [processVerb_err, processVerb_ok, hev, stProj]
    | none =>
      cases hew : stepErr clean ops bf bt w with
      | some e' => simp [processVerb_err, processVerb_ok, hew, stProj]
      | none =>
        simp only [processVerb_ok, hev, hew, stProj]
        exact congrArg some (stepPI_comm clean ops bf bt w v pi)

/-- The observable loop state is invariant under permuting the verb iteration
order. -/
theorem stProj_verbFold_perm (clean : LogicalResponse → Except String CleanedResponse)
    (ops : Operation → Option OperationProperties)
    (bf : List (String × FieldSchema)) (bt : BackendType)
    {vo1 vo2 : List Operation} (h : List.Perm vo1 vo2) :
    ∀ st, stProj (vo1.foldl (processVerb clean ops bf bt) st)
      = stProj (vo2.foldl (processVerb clean ops bf bt) st) := by
  induction h with
  | nil => intro st; rfl
  | cons x _h ih => intro st; simpa only [List.foldl_cons] using ih _
  | swap x y l =>
    intro st
    simp only [List.foldl_cons]
    exact stProj_verbFold_congr clean ops bf bt l _ _
      (stProj_swap clean ops bf bt st y x)
  | trans _h1 _h2 ih1 ih2 => intro st; exact (ih1 st).trans (ih2 st)

/-- One path step preserves the observable document relation, for permuted
verb orders. -/
theorem docPathStep_rel (clean : LogicalResponse → Except String CleanedResponse)
    {vo1 vo2 : List Operation} (hperm : List.Perm vo1 vo2) (p : Path)
    (su ua : List String) (bt : BackendType)
    (st1 st2 : OASDocument × Option GenError) (h : docRel st1 st2) (path : String) :
    docRel (docPathStep clean vo1 p su ua bt st1 path)
      (docPathStep clean vo2 p su ua bt st2 path) := by
  obtain ⟨d1, e1⟩ := st1
  obtain ⟨d2, e2⟩ := st2
  obtain ⟨hd, he⟩ := h
  simp only at hd
  subst hd
  cases e1 with
  | some e =>
    cases e2 with
    | some e' => exact ⟨rfl, rfl⟩
    | none => simp [Option.isSome] at he
  | none =>
    cases e2 with
    | some e' => simp [Option.isSome] at he
    | none =>
      have hst := stProj_verbFold_perm clean (resolveOperations p)
        (splitFields p.Fields path).2 bt hperm
      simp only [docPathStep]
      split
      next e heq => exact ⟨rfl, rfl⟩
      next params heq =>
        have hst' := hst (initialPathItem p su ua path params, none)
        split
        next pi1 hr1 =>
          split
          next pi2 hr2 =>
            rw [hr1, hr2] at hst'
            simp only [stProj] at hst'
            obtain rfl : pi1 = pi2 := Option.some.inj hst'
            exact ⟨rfl, rfl⟩
          next pi2 e2 hr2 =>
            rw [hr1, hr2] at hst'
            simp [stProj] at hst'
        next pi1 f1 hr1 =>
          split
          next pi2 hr2 =>
            rw [hr1, hr2] at hst'
            simp [stProj] at hst'
          next pi2 f2 hr2 => exact ⟨rfl, rfl⟩

/-- The whole path fold preserves the observable document relation. -/
theorem foldl_docPathStep_rel (clean : LogicalResponse → Except String CleanedResponse)
    {vo1 vo2 : List Operation} (hperm : List.Perm vo1 vo2) (p : Path)
    (su ua : List String) (bt : BackendType) :
    ∀ (L : List String) (st1 st2 : OASDocument × Option GenError), docRel st1 st2 →
      docRel (L.foldl (docPathStep clean vo1 p su ua bt) st1)
        (L.foldl (docPathStep clean vo2 p su ua bt) st2)
  | [], _, _, h => h
  | path :: rest, st1, st2, h =>
    foldl_docPathStep_rel clean hperm p su ua bt rest _ _
      (docPathStep_rel clean hperm p su ua bt st1 st2 h path)

/-- `documentPath` results for permuted verb orders are observably equal. -/
theorem documentPath_rel (clean : LogicalResponse → Except String CleanedResponse)
    {vo1 vo2 : List Operation} (hperm : List.Perm vo1 vo2) (p : Path)
    (sp : Option LogicalPaths) (bt : BackendType) (doc : OASDocument) :
    docRel (documentPath clean vo1 p sp bt doc) (documentPath clean vo2 p sp bt doc) := by
  simp only [documentPath]
  exact foldl_docPathStep_rel clean hperm p _ _ bt _ _ _ ⟨rfl, rfl⟩

/-- C7: for fixed inputs, the document contents produced by `documentPath` —
hence each path item's get, post and delete slots and its create-supported
flag — and whether the call aborts are the same for every iteration order of
the verb→handler map (any permutation of the five verbs): merge decisions
consult the map, not the iteration state, and each slot is written by at most
one processed verb. -/
theorem c7_verb_order_irrelevant (clean : LogicalResponse → Except String CleanedResponse)
    (vo1 vo2 : List Operation) (p : Path) (sp : Option LogicalPaths)
    (bt : BackendType) (doc : OASDocument)
    (h1 : List.Perm vo1 allVerbs) (h2 : List.Perm vo2 allVerbs) :
    (documentPath clean vo1 p sp bt doc).1 = (documentPath clean vo2 p sp bt doc).1 ∧
    (documentPath clean vo1 p sp bt doc).2.isSome
      = (documentPath clean vo2 p sp bt doc).2.isSome :=
  documentPath_rel clean (h1.trans h2.symm) p sp bt doc

/-- C7 witness: a concrete route processed in the canonical and in a reversed
verb order. -/
theorem c7_witness :
    (documentPath cleanOk allVerbs (routeWith opsCreatePubUpdateUnpub) none
        BackendType.typeUnknown emptyDoc).1
      = (documentPath cleanOk
          [Operation.list, Operation.delete, Operation.update, Operation.read, Operation.create]
          (routeWith opsCreatePubUpdateUnpub) none BackendType.typeUnknown emptyDoc).1 ∧
    (documentPath cleanOk allVerbs (routeWith opsCreatePubUpdateUnpub) none
        BackendType.typeUnknown emptyDoc).2.isSome
      = (documentPath cleanOk
          [Operation.list, Operation.delete, Operation.update, Operation.read, Operation.create]
          (routeWith opsCreatePubUpdateUnpub) none BackendType.typeUnknown emptyDoc).2.isSome :=
  c7_verb_order_irrelevant cleanOk allVerbs
    [Operation.list, Operation.delete, Operation.update, Operation.read, Operation.create]
    (routeWith opsCreatePubUpdateUnpub) none BackendType.typeUnknown emptyDoc
    (by decide) (by decide)

/-- One loop iteration never changes the parameter group. -/
theorem processVerb_Parameters (clean : LogicalResponse → Except String CleanedResponse)
    (ops : Operation → Option OperationProperties)
    (bf : List (String × FieldSchema)) (bt : BackendType)
    (st : VerbState) (v : Operation) :
    ((processVerb clean ops bf bt st v).1).Parameters = st.1.Parameters := by
  obtain ⟨pi, e⟩ := st
  cases e with
  | some e => rfl
  | none =>
    rw [processVerb_ok]
    rfl

/-- The verb loop never changes the parameter group. -/
theorem verbFold_Parameters (clean : LogicalResponse → Except String CleanedResponse)
    (ops : Operation → Option OperationProperties)
    (bf : List (String × FieldSchema)) (bt : BackendType) :
    ∀ (vo : List Operation) (st : VerbState),
      ((vo.foldl (processVerb clean ops bf bt) st).1).Parameters = st.1.Parameters
  | [], _ => rfl
  | w :: rest, st =>
    (verbFold_Parameters clean ops bf bt rest _).trans
      (processVerb_Parameters clean ops bf bt st w)

/-- The parameter sort produces a list sorted under the case-insensitive
name order. -/
theorem sortParams_sorted (l : List OASParameter) :
    List.Sorted paramLe (sortParams l) :=
  List.sorted_insertionSort paramLe l

/-- Membership in a document after a Go map assignment. -/
theorem mem_setPath (x : String × OASPathItem) (d : OASDocument) (k : String)
    (v : OASPathItem) (hx : x ∈ (setPath d k v).Paths) :
    x ∈ d.Paths ∨ x = (k, v) := by
  simp only [setPath] at hx
  by_cases hm : keyMem d.Paths k
  · rw [if_pos hm] at hx
    simp only [List.mem_map] at hx
    obtain ⟨a, ha, hax⟩ := hx
    by_cases hak : a.1 = k
    · right
      rw [if_pos hak] at hax
      exact hax.symm
    · left
      rw [if_neg hak] at hax
      exact hax ▸ ha
  · rw [if_neg hm] at hx
    rcases List.mem_append.mp hx with h | h
    · exact Or.inl h
    · exact Or.inr (List.mem_singleton.mp h)

/-- One path step preserves the all-items-sorted invariant. -/
theorem docPathStep_sorted (clean : LogicalResponse → Except String CleanedResponse)
    (vo : List Operation) (p : Path) (su ua : List String) (bt : BackendType)
    (st : OASDocument × Option GenError) (path : String)
    (h : ∀ x ∈ (st.1).Paths, List.Sorted paramLe x.2.Parameters) :
    ∀ x ∈ ((docPathStep clean vo p su ua bt st path).1).Paths,
      List.Sorted paramLe x.2.Parameters := by
  obtain ⟨d, e⟩ := st
  cases e with
  | some e => exact h
  | none =>
    simp only [docPathStep]
    split
    next e heq => exact h
    next params heq =>
      split
      next pi hr =>
        intro x hx
        rcases mem_setPath x d ("/" ++ path) pi hx with hold | rfl
        · exact h x hold
        · have hparams : pi.Parameters = sortParams params := by
            have := verbFold_Parameters clean (resolveOperations p)
              (splitFields p.Fields path).2 bt vo (initialPathItem p su ua path params, none)
            rw [hr] at this
            exact this
          simpa only [hparams] using sortParams_sorted params
      next pi f hr => exact h

/-- The path fold preserves the all-items-sorted invariant. -/
theorem foldl_docPathStep_sorted (clean : LogicalResponse → Except String CleanedResponse)
    (vo : List Operation) (p : Path) (su ua : List String) (bt : BackendType) :
    ∀ (L : List String) (st : OASDocument × Option GenError),
      (∀ x ∈ (st.1).Paths, List.Sorted paramLe x.2.Parameters) →
      ∀ x ∈ ((L.foldl (docPathStep clean vo p su ua bt) st).1).Paths,
        List.Sorted paramLe x.2.Parameters
  | [], _, h => h
  | path :: rest, st, h =>
    foldl_docPathStep_sorted clean vo p su ua bt rest _
      (docPathStep_sorted clean vo p su ua bt st path h)

/-- C9: every path item produced by `documentPath` (starting from an empty
document) has its shared Parameters list sorted ascending by name compared
case-insensitively; in particular, on a route with fields named `Zeta` and
`alpha` the assembled order is `["alpha", "Zeta"]`. -/
theorem c9_parameters_sorted :
    (∀ (clean : LogicalResponse → Except String CleanedResponse) (vo : List Operation)
       (p : Path) (sp : Option LogicalPaths) (bt : BackendType)
       (doc' : OASDocument) (e : Option GenError),
       documentPath clean vo p sp bt emptyDoc = (doc', e) →
       doc'.Paths.all (fun x => decide (List.Sorted paramLe x.2.Parameters)) = true) ∧
    ((lookupKey (documentPath cleanOk allVerbs zetaAlphaRoute none
          BackendType.typeUnknown emptyDoc).1.Paths "/x").map
        (fun i => i.Parameters.map (·.Name)) = some ["alpha", "Zeta"]) := by
  constructor
  · intro clean vo p sp bt doc' e hgen
    rw [List.all_eq_true]
    intro x hx
    rw [decide_eq_true_eq]
    have hmem : x ∈ doc'.Paths := hx
    have hres := foldl_docPathStep_sorted clean vo p (sudoOf sp) (unauthOf sp)
      bt (expandPattern p.Pattern) (emptyDoc, none)
      (by intro y hy; simp [emptyDoc] at hy)
    have hfst : (documentPath clean vo p sp bt emptyDoc).1 = doc' := by rw [hgen]
    rw [← hfst] at hmem
    exact hres x hmem
  · rfl

/-- C9 witness: the sortedness clause applied to the concrete `Zeta`/`alpha`
route. -/
theorem c9_witness :
    (documentPath cleanOk allVerbs zetaAlphaRoute none BackendType.typeUnknown
        emptyDoc).1.Paths.all
      (fun x => decide (List.Sorted paramLe x.2.Parameters)) = true :=
  c9_parameters_sorted.1 cleanOk allVerbs zetaAlphaRoute none BackendType.typeUnknown
    (documentPath cleanOk allVerbs zetaAlphaRoute none BackendType.typeUnknown emptyDoc).1
    (documentPath cleanOk allVerbs zetaAlphaRoute none BackendType.typeUnknown emptyDoc).2
    rfl

/-- `find?` skips a prefix in which it fails. -/
theorem find?_append_none {α : Type} (p : α → Bool) (l1 l2 : List α)
    (h : l1.find? p = none) : (l1 ++ l2).find? p = l2.find? p := by
  induction l1 with
  | nil => rfl
  | cons hd tl ih =>
    cases hp : p hd with
    | true => simp [List.find?_cons, hp] at h
    | false =>
      simp only [List.find?_cons, hp] at h
      simp only [List.cons_append, List.find?_cons, hp]
      exact ih h

/-- `find?` stops in a prefix in which it succeeds. -/
theorem find?_append_some {α : Type} (p : α → Bool) (l1 l2 : List α) (x : α)
    (h : l1.find? p = some x) : (l1 ++ l2).find? p = some x := by
  induction l1 with
  | nil => cases h
  | cons hd tl ih =>
    cases hp : p hd with
    | true =>
      simp only [List.find?_cons, hp] at h
      simp only [List.cons_append, List.find?_cons, hp]
      exact h
    | false =>
      simp only [List.find?_cons, hp] at h
      simp only [List.cons_append, List.find?_cons, hp]
      exact ih h

/-- After overwriting key `k` in place, `find?` for `k` returns the new entry. -/
theorem find?_map_set {α : Type} (l : List (String × α)) (k : String) (v : α)
    (h : (l.find? (fun p => p.1 = k)).isSome) :
    ((l.map (fun p => if p.1 = k then (k, v) else p)).find? (fun p => p.1 = k))
      = some (k, v) := by
  induction l with
  | nil => simp at h
  | cons hd tl ih =>
    by_cases hk : hd.1 = k
    · simp [List.find?_cons, hk]
    · rw [List.map_cons, if_neg hk, List.find?_cons_of_neg _ (by simpa using hk)]
      rw [List.find?_cons_of_neg _ (by simpa using hk)] at h
      exact ih h

/-- Overwriting key `k` in place does not affect `find?` for other keys. -/
theorem find?_map_set_ne {α : Type} (l : List (String × α)) (k k' : String) (v : α)
    (h : k' ≠ k) :
    ((l.map (fun p => if p.1 = k then (k, v) else p)).find? (fun p => p.1 = k'))
      = l.find? (fun p => p.1 = k') := by
  induction l with
  | nil => rfl
  | cons hd tl ih =>
    by_cases hk : hd.1 = k
    · rw [List.map_cons, if_pos hk]
      have h1 : ¬ (k = k') := fun hkk => h hkk.symm
      have h2 : ¬ (hd.1 = k') := by rw [hk]; exact h1
      rw [List.find?_cons_of_neg _ (by simpa using h1)]
      rw [List.find?_cons_of_neg _ (by simpa using h2)]
      exact ih
    · rw [List.map_cons, if_neg hk, List.find?_cons, List.find?_cons]
      cases hp : (decide (hd.1 = k') : Bool) with
      | true => rfl
      | false => exact ih

/-- Go map assignment then lookup of the same key. -/
theorem lookupKey_setPath_self (d : OASDocument) (k : String) (v : OASPathItem) :
    lookupKey (setPath d k v).Paths k = some v := by
  simp only [setPath]
  by_cases hm : keyMem d.Paths k
  · rw [if_pos hm]
    simp only [lookupKey]
    rw [find?_map_set _ _ _ (by simpa [keyMem] using hm)]
    rfl
  · rw [if_neg hm]
    simp only [lookupKey]
    cases hf : d.Paths.find? (fun p => p.1 = k) with
    | some x => exact absurd (by simp [keyMem, hf]) hm
    | none =>
      rw [find?_append_none _ _ _ hf]
      simp [List.find?]

/-- Go map assignment then lookup of a different key. -/
theorem lookupKey_setPath_ne (d : OASDocument) (k k' : String) (v : OASPathItem)
    (h : k' ≠ k) :
    lookupKey (setPath d k v).Paths k' = lookupKey d.Paths k' := by
  simp only [setPath]
  by_cases hm : keyMem d.Paths k
  · rw [if_pos hm]
    simp only [lookupKey]
    rw [find?_map_set_ne _ _ _ _ h]
  · rw [if_neg hm]
    simp only [lookupKey]
    cases hf : d.Paths.find? (fun p => p.1 = k') with
    | some x => rw [find?_append_some _ _ _ _ hf]
    | none =>
      rw [find?_append_none _ _ _ hf]
      have h1 : ¬ (k = k') := fun hkk => h hkk.symm
      simp [List.find?, h1]

/-- Prefixing with `/` is injective. -/
theorem slash_append_inj (a b : String) (h : ("/" ++ a : String) = "/" ++ b) : a = b := by
  have h2 : ("/" ++ a : String).data = ("/" ++ b : String).data := congrArg String.data h
  rw [String.data_append, String.data_append] at h2
  have h3 : a.data = b.data := List.append_cancel_left h2
  obtain ⟨a'⟩ := a
  obtain ⟨b'⟩ := b
  exact congrArg String.mk h3

/-- A path step from an errored state is the identity. -/
theorem docPathStep_err (clean : LogicalResponse → Except String CleanedResponse)
    (vo : List Operation) (p : Path) (su ua : List String) (bt : BackendType)
    (d : OASDocument) (e : GenError) (path : String) :
    docPathStep clean vo p su ua bt (d, some e) path = (d, some e) := rfl

/-- The whole path fold from an errored state is the identity. -/
theorem foldl_docPathStep_err (clean : LogicalResponse → Except String CleanedResponse)
    (vo : List Operation) (p : Path) (su ua : List String) (bt : BackendType) :
    ∀ (L : List String) (d : OASDocument) (e : GenError),
      L.foldl (docPathStep clean vo p su ua bt) (d, some e) = (d, some e)
  | [], _, _ => rfl
  | _ :: rest, d, e => foldl_docPathStep_err clean vo p su ua bt rest d e

/-- A path step from an error-free state, when the path's outcome is a
finished item, inserts that item. -/
theorem docPathStep_of_outcome_some (clean : LogicalResponse → Except String CleanedResponse)
    (vo : List Operation) (p : Path) (sp : Option LogicalPaths) (bt : BackendType)
    (d : OASDocument) (path : String) (pi : OASPathItem)
    (h : pathOutcomePI clean vo p sp bt path = some pi) :
    docPathStep clean vo p (sudoOf sp) (unauthOf sp) bt (d, none) path
      = (setPath d ("/" ++ path) pi, none) := by
  simp only [pathOutcomePI] at h
  split at h
  next e heq => cases h
  next params heq =>
    split at h
    next pi2 hr =>
      obtain rfl : pi2 = pi := Option.some.inj h
      simp only [docPathStep]
      split
      next e heq' => rw [heq] at heq'; cases heq'
      next params' heq' =>
        rw [heq] at heq'
        obtain rfl : params = params' := Except.ok.inj heq'
        split
        next pi3 hr' =>
          rw [hr] at hr'
          injection hr' with h1 h2
          rw [h1]
        next pi3 f hr' =>
          rw [hr] at hr'
          injection hr' with h1 h2
          cases h2
    next pi2 f hr => cases h

/-- A path step from an error-free state, when the path's outcome is absent,
aborts without touching the document. -/
theorem docPathStep_of_outcome_none (clean : LogicalResponse → Except String CleanedResponse)
    (vo : List Operation) (p : Path) (sp : Option LogicalPaths) (bt : BackendType)
    (d : OASDocument) (path : String)
    (h : pathOutcomePI clean vo p sp bt path = none) :
    ∃ e, docPathStep clean vo p (sudoOf sp) (unauthOf sp) bt (d, none) path
      = (d, some e) := by
  simp only [pathOutcomePI] at h
  split at h
  next e heq =>
    simp only [docPathStep]
    split
    next e' heq' => exact ⟨e', rfl⟩
    next params' heq' => rw [heq] at heq'; cases heq'
  next params heq =>
    split at h
    next pi2 hr => cases h
    next pi2 f hr =>
      simp only [docPathStep]
      split
      next e' heq' => exact ⟨e', rfl⟩
      next params' heq' =>
        rw [heq] at heq'
        obtain rfl : params = params' := Except.ok.inj heq'
        split
        next pi3 hr' =>
          rw [hr] at hr'
          injection hr' with h1 h2
          cases h2
        next pi3 f' hr' => exact ⟨f', rfl⟩

/-- Once a path's item is in the document, later path steps keep it (a later
insert under the same key re-inserts the same deterministic outcome). -/
theorem foldl_docPathStep_preserves_lookup
    (clean : LogicalResponse → Except String CleanedResponse)
    (vo : List Operation) (p : Path) (sp : Option LogicalPaths) (bt : BackendType)
    (q : String) (pi : OASPathItem) (hq : pathOutcomePI clean vo p sp bt q = some pi) :
    ∀ (L : List String) (d : OASDocument) (d' : OASDocument),
      lookupKey d.Paths ("/" ++ q) = some pi →
      L.foldl (docPathStep clean vo p (sudoOf sp) (unauthOf sp) bt) (d, none) = (d', none) →
      lookupKey d'.Paths ("/" ++ q) = some pi := by
  intro L
  induction L with
  | nil =>
    intro d d' hl hf
    obtain rfl : d = d' := congrArg Prod.fst hf
    exact hl
  | cons r rest ih =>
    intro d d' hl hf
    rw [List.foldl_cons] at hf
    cases ho : pathOutcomePI clean vo p sp bt r with
    | none =>
      obtain ⟨e, he⟩ := docPathStep_of_outcome_none clean vo p sp bt d r ho
      rw [he, foldl_docPathStep_err] at hf
      cases congrArg Prod.snd hf
    | some pir =>
      rw [docPathStep_of_outcome_some clean vo p sp bt d r pir ho] at hf
      refine ih _ _ ?_ hf
      by_cases hrq : r = q
      · subst hrq
        obtain rfl : pir = pi := Option.some.inj (ho.symm.trans hq)
        exact lookupKey_setPath_self d _ pir
      · rw [lookupKey_setPath_ne _ _ _ _ (fun hc => hrq (slash_append_inj _ _ hc).symm)]
        exact hl

/-- Every path processed by a successful fold ends up in the document with
its deterministic outcome. -/
theorem foldl_docPathStep_ok_lookup
    (clean : LogicalResponse → Except String CleanedResponse)
    (vo : List Operation) (p : Path) (sp : Option LogicalPaths) (bt : BackendType) :
    ∀ (L : List String) (d : OASDocument) (d' : OASDocument),
      L.foldl (docPathStep clean vo p (sudoOf sp) (unauthOf sp) bt) (d, none) = (d', none) →
      ∀ path ∈ L, ∃ pi, pathOutcomePI clean vo p sp bt path = some pi ∧
        lookupKey d'.Paths ("/" ++ path) = some pi := by
  intro L
  induction L with
  | nil => intro d d' _ path hpath; cases hpath
  | cons q rest ih =>
    intro d d' hf path hpath
    rw [List.foldl_cons] at hf
    cases ho : pathOutcomePI clean vo p sp bt q with
    | none =>
      obtain ⟨e, he⟩ := docPathStep_of_outcome_none clean vo p sp bt d q ho
      rw [he, foldl_docPathStep_err] at hf
      cases congrArg Prod.snd hf
    | some piq =>
      rw [docPathStep_of_outcome_some clean vo p sp bt d q piq ho] at hf
      rcases List.mem_cons.mp hpath with rfl | hrest
      · exact ⟨piq, ho, foldl_docPathStep_preserves_lookup clean vo p sp bt path piq ho
          rest _ _ (lookupKey_setPath_self d _ piq) hf⟩
      · exact ih _ _ hf path hrest

/-- Every expanded path of a successfully documented route can be looked up
in the resulting document, holding the path's deterministic outcome. -/
theorem documentPath_ok_lookup (clean : LogicalResponse → Except String CleanedResponse)
    (vo : List Operation) (p : Path) (sp : Option LogicalPaths) (bt : BackendType)
    (doc doc' : OASDocument)
    (hgen : documentPath clean vo p sp bt doc = (doc', none)) :
    ∀ path ∈ expandPattern p.Pattern, ∃ pi,
      pathOutcomePI clean vo p sp bt path = some pi ∧
      lookupKey doc'.Paths ("/" ++ path) = some pi :=
  foldl_docPathStep_ok_lookup clean vo p sp bt (expandPattern p.Pattern) doc doc' hgen

/-- A verb loop that finishes without error applied no erroring step, and its
item is the pure fold of the per-verb effects. -/
theorem verbFold_no_err (clean : LogicalResponse → Except String CleanedResponse)
    (ops : Operation → Option OperationProperties)
    (bf : List (String × FieldSchema)) (bt : BackendType) :
    ∀ (vo : List Operation) (pi0 pi : OASPathItem),
      vo.foldl (processVerb clean ops bf bt) (pi0, none) = (pi, none) →
      (∀ v ∈ vo, stepErr clean ops bf bt v = none) ∧ pi = piFold clean ops bf bt vo pi0 := by
  intro vo
  induction vo with
  | nil =>
    intro pi0 pi h
    refine ⟨fun v hv => absurd hv (List.not_mem_nil v), ?_⟩
    exact (congrArg Prod.fst h).symm
  | cons w rest ih =>
    intro pi0 pi h
    rw [List.foldl_cons, processVerb_ok] at h
    cases hse : stepErr clean ops bf bt w with
    | some e => rw [hse, foldl_processVerb_err] at h; simp at h
    | none =>
      rw [hse] at h
      obtain ⟨hall, hpi⟩ := ih (stepPI clean ops bf bt w pi0) pi h
      refine ⟨?_, ?_⟩
      · intro v hv
        rcases List.mem_cons.mp hv with rfl | hv'
        · exact hse
        · exact hall v hv'
      · rw [hpi]; rfl

/-- A post slot already holding the unique post write survives the pure fold. -/
theorem piFold_Post_preserved (clean : LogicalResponse → Except String CleanedResponse)
    (ops : Operation → Option OperationProperties)
    (bf : List (String × FieldSchema)) (bt : BackendType) (op : OASOperation)
    (hall : ∀ u, (postW clean ops bf bt u).isSome → postW clean ops bf bt u = some op) :
    ∀ (vo : List Operation) (pi : OASPathItem), pi.Post = some op →
      (piFold clean ops bf bt vo pi).Post = some op := by
  intro vo
  induction vo with
  | nil => intro pi h; exact h
  | cons w rest ih =>
    intro pi h
    show (piFold clean ops bf bt rest (stepPI clean ops bf bt w pi)).Post = some op
    apply ih
    cases hpw : postW clean ops bf bt w with
    | none => simp [stepPI, hpw, Option.or, h]
    | some x =>
      have hx := hall w (by rw [hpw]; rfl)
      rw [hpw] at hx
      obtain rfl : x = op := Option.some.inj hx
      simp [stepPI, hpw, Option.or]

/-- A verb whose post write is present and visited by the loop determines the
final post slot. -/
theorem piFold_Post_of_mem (clean : LogicalResponse → Except String CleanedResponse)
    (ops : Operation → Option OperationProperties)
    (bf : List (String × FieldSchema)) (bt : BackendType) (v : Operation) (op : OASOperation)
    (hw : postW clean ops bf bt v = some op) :
    ∀ (vo : List Operation), v ∈ vo → ∀ (pi : OASPathItem),
      (piFold clean ops bf bt vo pi).Post = some op := by
  have hall : ∀ u, (postW clean ops bf bt u).isSome → postW clean ops bf bt u = some op := by
    intro u hu
    obtain rfl : u = v := postW_incompat clean ops bf bt u v hu (by rw [hw]; rfl)
    exact hw
  intro vo
  induction vo with
  | nil => intro hv; cases hv
  | cons w rest ih =>
    intro hv pi
    by_cases hvr : v ∈ rest
    · exact ih hvr _
    · have hvw : v = w := by
        rcases List.mem_cons.mp hv with h | h
        · exact h
        · exact absurd h hvr
      subst hvw
      show (piFold clean ops bf bt rest (stepPI clean ops bf bt v pi)).Post = some op
      apply piFold_Post_preserved clean ops bf bt op hall
      simp [stepPI, hw, Option.or]

/-- A get slot already holding the unique get write survives the pure fold. -/
theorem piFold_Get_preserved (clean : LogicalResponse → Except String CleanedResponse)
    (ops : Operation → Option OperationProperties)
    (bf : List (String × FieldSchema)) (bt : BackendType) (op : OASOperation)
    (hall : ∀ u, (getW clean ops bf bt u).isSome → getW clean ops bf bt u = some op) :
    ∀ (vo : List Operation) (pi : OASPathItem), pi.Get = some op →
      (piFold clean ops bf bt vo pi).Get = some op := by
  intro vo
  induction vo with
  | nil => intro pi h; exact h
  | cons w rest ih =>
    intro pi h
    show (piFold clean ops bf bt rest (stepPI clean ops bf bt w pi)).Get = some op
    apply ih
    cases hpw : getW clean ops bf bt w with
    | none => simp [stepPI, hpw, Option.or, h]
    | some x =>
      have hx := hall w (by rw [hpw]; rfl)
      rw [hpw] at hx
      obtain rfl : x = op := Option.some.inj hx
      simp [stepPI, hpw, Option.or]

/-- A verb whose get write is present and visited by the loop determines the
final get slot. -/
theorem piFold_Get_of_mem (clean : LogicalResponse → Except String CleanedResponse)
    (ops : Operation → Option OperationProperties)
    (bf : List (String × FieldSchema)) (bt : BackendType) (v : Operation) (op : OASOperation)
    (hw : getW clean ops bf bt v = some op) :
    ∀ (vo : List Operation), v ∈ vo → ∀ (pi : OASPathItem),
      (piFold clean ops bf bt vo pi).Get = some op := by
  have hall : ∀ u, (getW clean ops bf bt u).isSome → getW clean ops bf bt u = some op := by
    intro u hu
    obtain rfl : u = v := getW_incompat clean ops bf bt u v hu (by rw [hw]; rfl)
    exact hw
  intro vo
  induction vo with
  | nil => intro hv; cases hv
  | cons w rest ih =>
    intro hv pi
    by_cases hvr : v ∈ rest
    · exact ih hvr _
    · have hvw : v = w := by
        rcases List.mem_cons.mp hv with h | h
        · exact h
        · exact absurd h hvr
      subst hvw
      show (piFold clean ops bf bt rest (stepPI clean ops bf bt v pi)).Get = some op
      apply piFold_Get_preserved clean ops bf bt op hall
      simp [stepPI, hw, Option.or]

/-- The create-supported flag is monotone along the pure fold. -/
theorem piFold_Flag_preserved (clean : LogicalResponse → Except String CleanedResponse)
    (ops : Operation → Option OperationProperties)
    (bf : List (String × FieldSchema)) (bt : BackendType) :
    ∀ (vo : List Operation) (pi : OASPathItem), pi.CreateSupported = true →
      (piFold clean ops bf bt vo pi).CreateSupported = true := by
  intro vo
  induction vo with
  | nil => intro pi h; exact h
  | cons w rest ih =>
    intro pi h
    show (piFold clean ops bf bt rest (stepPI clean ops bf bt w pi)).CreateSupported = true
    apply ih
    simp [stepPI, h]

/-- A visited verb that raises the create-supported flag forces it in the
final item. -/
theorem piFold_Flag_of_mem (clean : LogicalResponse → Except String CleanedResponse)
    (ops : Operation → Option OperationProperties)
    (bf : List (String × FieldSchema)) (bt : BackendType) (v : Operation)
    (hf : flagW ops v = true) :
    ∀ (vo : List Operation), v ∈ vo → ∀ (pi : OASPathItem),
      (piFold clean ops bf bt vo pi).CreateSupported = true := by
  intro vo
  induction vo with
  | nil => intro hv; cases hv
  | cons w rest ih =>
    intro hv pi
    by_cases hvr : v ∈ rest
    · exact ih hvr _
    · have hvw : v = w := by
        rcases List.mem_cons.mp hv with h | h
        · exact h
        · exact absurd h hvr
      subst hvw
      show (piFold clean ops bf bt rest (stepPI clean ops bf bt v pi)).CreateSupported = true
      apply piFold_Flag_preserved
      simp [stepPI, hf]

/-- A building verb whose iteration does not abort got a successful build. -/
theorem stepErr_none_ok (clean : LogicalResponse → Except String CleanedResponse)
    (ops : Operation → Option OperationProperties)
    (bf : List (String × FieldSchema)) (bt : BackendType)
    (v : Operation) (props : OperationProperties)
    (hb : buildsOp ops v = true) (hv : ops v = some props)
    (he : stepErr clean ops bf bt v = none) :
    ∃ op, buildOp clean v props bf (ops Operation.list).isSome bt = Except.ok op := by
  simp only [stepErr, if_pos hb, hv] at he
  cases hbo : buildOp clean v props bf (ops Operation.list).isSome bt with
  | error e => rw [hbo] at he; simp at he
  | ok op => exact ⟨op, rfl⟩

/-- A successful build is the operation the verb contributes. -/
theorem builtOp_of_ok (clean : LogicalResponse → Except String CleanedResponse)
    (ops : Operation → Option OperationProperties)
    (bf : List (String × FieldSchema)) (bt : BackendType)
    (v : Operation) (props : OperationProperties) (op : OASOperation)
    (hb : buildsOp ops v = true) (hv : ops v = some props)
    (hbo : buildOp clean v props bf (ops Operation.list).isSome bt = Except.ok op) :
    builtOp clean ops bf bt v = some op := by
  simp only [builtOp, if_pos hb, hv]
  rw [hbo]
  rfl

/-- The parameter list of a built operation is the `list` query parameter
exactly for a list verb or a read verb sharing its route with a list
handler. -/
theorem buildOp_ok_Parameters (clean : LogicalResponse → Except String CleanedResponse)
    (v : Operation) (props : OperationProperties)
    (bf : List (String × FieldSchema)) (lp : Bool) (bt : BackendType) (op : OASOperation)
    (h : buildOp clean v props bf lp bt = Except.ok op) :
    op.Parameters
      = if v = Operation.list ∨ (v = Operation.read ∧ lp) then [listQueryParam] else [] := by
  simp only [buildOp] at h
  cases hr : buildResponses clean (decide (v = Operation.delete)) props.Responses with
  | error e => rw [hr] at h; simp [Except.bind] at h
  | ok rs =>
    rw [hr] at h
    have h2 := Except.ok.inj h
    rw [← h2]

/-- C4: for every route whose resolved verb-handler set defines both a create
handler and an update handler (both published), every path item the route
contributes has its create-supported flag set, its post slot holds exactly
the operation built from the update handler's metadata, and no operation is
built from the create handler. -/
theorem c4_create_update_merge (clean : LogicalResponse → Except String CleanedResponse)
    (vo : List Operation) (p : Path) (ops : Operation → Option OperationProperties)
    (propsC propsU : OperationProperties) (sp : Option LogicalPaths) (bt : BackendType)
    (doc doc' : OASDocument)
    (hops : resolveOperations p = ops)
    (hvo : vo.Perm allVerbs)
    (hc : ops Operation.create = some propsC) (hcp : propsC.Unpublished = false)
    (hu : ops Operation.update = some propsU) (hup : propsU.Unpublished = false)
    (hgen : documentPath clean vo p sp bt doc = (doc', none)) :
    ∀ path ∈ expandPattern p.Pattern, ∃ pi opU,
      lookupKey doc'.Paths ("/" ++ path) = some pi ∧
      pi.CreateSupported = true ∧
      pi.Post = some opU ∧
      buildOp clean Operation.update propsU (splitFields p.Fields path).2
        (ops Operation.list).isSome bt = Except.ok opU ∧
      builtOp clean ops (splitFields p.Fields path).2 bt Operation.create = none := by
  intro path hmem
  obtain ⟨pi, hout, hlook⟩ := documentPath_ok_lookup clean vo p sp bt doc doc' hgen path hmem
  simp only [pathOutcomePI, hops] at hout
  split at hout
  next e heq => cases hout
  next params heq =>
    split at hout
    next pi2 hfold =>
      obtain rfl : pi = pi2 := (Option.some.inj hout).symm
      obtain ⟨hall, hpieq⟩ := verbFold_no_err clean ops (splitFields p.Fields path).2 bt vo
        (initialPathItem p (sudoOf sp) (unauthOf sp) path params) pi hfold
      have hupd_mem : Operation.update ∈ vo := (hvo.mem_iff).mpr (by decide)
      have hcr_mem : Operation.create ∈ vo := (hvo.mem_iff).mpr (by decide)
      have hbU : buildsOp ops Operation.update = true := by
        simp [buildsOp, pubPresent, hu, hup]
      obtain ⟨opU, hbuildU⟩ := stepErr_none_ok clean ops (splitFields p.Fields path).2 bt
        Operation.update propsU hbU hu (hall Operation.update hupd_mem)
      have hbuiltU := builtOp_of_ok clean ops (splitFields p.Fields path).2 bt
        Operation.update propsU opU hbU hu hbuildU
      have hpostU : postW clean ops (splitFields p.Fields path).2 bt Operation.update
          = some opU := by
        simp [postW, hbuiltU]
      have hPost : pi.Post = some opU := by
        rw [hpieq]
        exact piFold_Post_of_mem clean ops (splitFields p.Fields path).2 bt
          Operation.update opU hpostU vo hupd_mem _
      have hflagC : flagW ops Operation.create = true := by
        simp [flagW, pubPresent, hc, hcp]
      have hCS : pi.CreateSupported = true := by
        rw [hpieq]
        exact piFold_Flag_of_mem clean ops (splitFields p.Fields path).2 bt
          Operation.create hflagC vo hcr_mem _
      have hnoC : builtOp clean ops (splitFields p.Fields path).2 bt Operation.create
          = none := by
        have hb : buildsOp ops Operation.create = false := by
          simp [buildsOp, hu]
        simp [builtOp, hb]
      exact ⟨pi, opU, hlook, hCS, hPost, hbuildU, hnoC⟩
    next pi2 f hfold => cases hout

/-- The C4 property at a concrete route carrying published create and update
handlers: the create-supported flag is set, the single post operation is the
update handler's, and the create handler builds none. -/
theorem c4_witness :
    ∃ pi opU,
      lookupKey (documentPath cleanOk allVerbs (routeWith opsCreateUpdatePub) none
          BackendType.typeLogical emptyDoc).1.Paths ("/" ++ "x") = some pi ∧
      pi.CreateSupported = true ∧
      pi.Post = some opU ∧
      buildOp cleanOk Operation.update propsPub2
        (splitFields (routeWith opsCreateUpdatePub).Fields "x").2
        (opsCreateUpdatePub Operation.list).isSome BackendType.typeLogical
        = Except.ok opU ∧
      builtOp cleanOk opsCreateUpdatePub (splitFields (routeWith opsCreateUpdatePub).Fields "x").2
        BackendType.typeLogical Operation.create = none := by
  have hgen : documentPath cleanOk allVerbs (routeWith opsCreateUpdatePub) none
      BackendType.typeLogical emptyDoc
      = ((documentPath cleanOk allVerbs (routeWith opsCreateUpdatePub) none
          BackendType.typeLogical emptyDoc).1, none) := rfl
  exact c4_create_update_merge cleanOk allVerbs (routeWith opsCreateUpdatePub)
    opsCreateUpdatePub propsPub propsPub2 none BackendType.typeLogical emptyDoc _
    rfl (List.Perm.refl _) rfl rfl rfl rfl hgen "x" (by decide)

/-- C5: for every route whose resolved verb-handler set defines both a list
handler and a read handler (both published), every path item the route
contributes holds in its get slot exactly the operation built from the read
handler, that operation carries the `list` query parameter, and no operation
is built from the list handler. -/
theorem c5_read_list_merge (clean : LogicalResponse → Except String CleanedResponse)
    (vo : List Operation) (p : Path) (ops : Operation → Option OperationProperties)
    (propsR propsL : OperationProperties) (sp : Option LogicalPaths) (bt : BackendType)
    (doc doc' : OASDocument)
    (hops : resolveOperations p = ops)
    (hvo : vo.Perm allVerbs)
    (hr : ops Operation.read = some propsR) (hrp : propsR.Unpublished = false)
    (hl : ops Operation.list = some propsL) (hlp : propsL.Unpublished = false)
    (hgen : documentPath clean vo p sp bt doc = (doc', none)) :
    ∀ path ∈ expandPattern p.Pattern, ∃ pi opR,
      lookupKey doc'.Paths ("/" ++ path) = some pi ∧
      pi.Get = some opR ∧
      buildOp clean Operation.read propsR (splitFields p.Fields path).2
        (ops Operation.list).isSome bt = Except.ok opR ∧
      opR.Parameters = [listQueryParam] ∧
      listQueryParam.Name = "list" ∧
      listQueryParam.Description = "Return a list if `true`" ∧
      builtOp clean ops (splitFields p.Fields path).2 bt Operation.list = none := by
  intro path hmem
  obtain ⟨pi, hout, hlook⟩ := documentPath_ok_lookup clean vo p sp bt doc doc' hgen path hmem
  simp only [pathOutcomePI, hops] at hout
  split at hout
  next e heq => cases hout
  next params heq =>
    split at hout
    next pi2 hfold =>
      obtain rfl : pi = pi2 := (Option.some.inj hout).symm
      obtain ⟨hall, hpieq⟩ := verbFold_no_err clean ops (splitFields p.Fields path).2 bt vo
        (initialPathItem p (sudoOf sp) (unauthOf sp) path params) pi hfold
      have hrd_mem : Operation.read ∈ vo := (hvo.mem_iff).mpr (by decide)
      have hbR : buildsOp ops Operation.read = true := by
        simp [buildsOp, pubPresent, hr, hrp]
      obtain ⟨opR, hbuildR⟩ := stepErr_none_ok clean ops (splitFields p.Fields path).2 bt
        Operation.read propsR hbR hr (hall Operation.read hrd_mem)
      have hbuiltR := builtOp_of_ok clean ops (splitFields p.Fields path).2 bt
        Operation.read propsR opR hbR hr hbuildR
      have hgetR : getW clean ops (splitFields p.Fields path).2 bt Operation.read
          = some opR := by
        simp [getW, hbuiltR]
      have hGet : pi.Get = some opR := by
        rw [hpieq]
        exact piFold_Get_of_mem clean ops (splitFields p.Fields path).2 bt
          Operation.read opR hgetR vo hrd_mem _
      have hparams : opR.Parameters = [listQueryParam] := by
        rw [buildOp_ok_Parameters clean Operation.read propsR (splitFields p.Fields path).2
          (ops Operation.list).isSome bt opR hbuildR]
        rw [hl]
        simp
      have hnoL : builtOp clean ops (splitFields p.Fields path).2 bt Operation.list
          = none := by
        have hb : buildsOp ops Operation.list = false := by
          simp [buildsOp, hr]
        simp [builtOp, hb]
      exact ⟨pi, opR, hlook, hGet, hbuildR, hparams, rfl, rfl, hnoL⟩
    next pi2 f hfold => cases hout

/-- The C5 property at a concrete route carrying published read and list
handlers: the single get operation is the read handler's and carries the
`list` query parameter; the list handler builds none. -/
theorem c5_witness :
    ∃ pi opR,
      lookupKey (documentPath cleanOk allVerbs (routeWith opsReadListPub) none
          BackendType.typeLogical emptyDoc).1.Paths ("/" ++ "x") = some pi ∧
      pi.Get = some opR ∧
      buildOp cleanOk Operation.read propsPub
        (splitFields (routeWith opsReadListPub).Fields "x").2
        (opsReadListPub Operation.list).isSome BackendType.typeLogical
        = Except.ok opR ∧
      opR.Parameters = [listQueryParam] ∧
      listQueryParam.Name = "list" ∧
      listQueryParam.Description = "Return a list if `true`" ∧
      builtOp cleanOk opsReadListPub (splitFields (routeWith opsReadListPub).Fields "x").2
        BackendType.typeLogical Operation.list = none := by
  have hgen : documentPath cleanOk allVerbs (routeWith opsReadListPub) none
      BackendType.typeLogical emptyDoc
      = ((documentPath cleanOk allVerbs (routeWith opsReadListPub) none
          BackendType.typeLogical emptyDoc).1, none) := rfl
  exact c5_read_list_merge cleanOk allVerbs (routeWith opsReadListPub)
    opsReadListPub propsPub propsPub2 none BackendType.typeLogical emptyDoc _
    rfl (List.Perm.refl _) rfl rfl rfl rfl hgen "x" (by decide)

/-- An absent or unpublished handler leaves the loop state untouched. -/
theorem processVerb_skip (clean : LogicalResponse → Except String CleanedResponse)
    (ops : Operation → Option OperationProperties)
    (bf : List (String × FieldSchema)) (bt : BackendType)
    (pi : OASPathItem) (w : Operation)
    (h : pubPresent ops w = false) :
    processVerb clean ops bf bt (pi, none) w = (pi, none) := by
  cases hov : ops w with
  | none => simp [processVerb, hov]
  | some props =>
    have hu : props.Unpublished = true := by
      simpa [pubPresent, hov] using h
    simp [processVerb, hov, hu]

/-- The list-present argument only matters to a read operation's build. -/
theorem buildOp_lp_irrel (clean : LogicalResponse → Except String CleanedResponse)
    (v : Operation) (props : OperationProperties)
    (bf : List (String × FieldSchema)) (lp lp' : Bool) (bt : BackendType)
    (hv : ¬ v = Operation.read) :
    buildOp clean v props bf lp bt = buildOp clean v props bf lp' bt := by
  simp [buildOp, hv]

/-- One loop iteration only consults the handler map at its own verb, at
update (for a create verb), at read (for a list verb), and at list (through
the build's list-present argument). -/
theorem processVerb_congr_at (clean : LogicalResponse → Except String CleanedResponse)
    (ops ops' : Operation → Option OperationProperties)
    (bf : List (String × FieldSchema)) (bt : BackendType) (pi : OASPathItem) (w : Operation)
    (hw : ops' w = ops w)
    (hupd : w = Operation.create → ops' Operation.update = ops Operation.update)
    (hread : w = Operation.list → ops' Operation.read = ops Operation.read)
    (hbo : ∀ props, buildOp clean w props bf (ops' Operation.list).isSome bt
        = buildOp clean w props bf (ops Operation.list).isSome bt) :
    processVerb clean ops' bf bt (pi, none) w = processVerb clean ops bf bt (pi, none) w := by
  cases w
  case create =>
    cases hov : ops Operation.create with
    | none => simp [processVerb, hw, hov]
    | some props =>
      by_cases hu : props.Unpublished
      · simp [processVerb, hw, hov, hu]
      · simp [processVerb, hw, hov, hu, hupd rfl, hbo props]
  case read =>
    cases hov : ops Operation.read with
    | none => simp [processVerb, hw, hov]
    | some props =>
      by_cases hu : props.Unpublished
      · simp [processVerb, hw, hov, hu]
      · simp [processVerb, hw, hov, hu, hbo props]
  case update =>
    cases hov : ops Operation.update with
    | none => simp [processVerb, hw, hov]
    | some props =>
      by_cases hu : props.Unpublished
      · simp [processVerb, hw, hov, hu]
      · simp [processVerb, hw, hov, hu, hbo props]
  case delete =>
    cases hov : ops Operation.delete with
    | none => simp [processVerb, hw, hov]
    | some props =>
      by_cases hu : props.Unpublished
      · simp [processVerb, hw, hov, hu]
      · simp [processVerb, hw, hov, hu, hbo props]
  case list =>
    cases hov : ops Operation.list with
    | none => simp [processVerb, hw, hov]
    | some props =>
      by_cases hu : props.Unpublished
      · simp [processVerb, hw, hov, hu]
      · simp [processVerb, hw, hov, hu, hread rfl, hbo props]

/-- Deleting an unpublished handler changes no loop iteration, provided its
verb is not one whose mere presence another handler consults (an update
handler consulted by a published create, a read handler consulted by a
published list, or a list handler consulted by a published read). -/
theorem processVerb_removeVerb (clean : LogicalResponse → Except String CleanedResponse)
    (ops : Operation → Option OperationProperties)
    (bf : List (String × FieldSchema)) (bt : BackendType) (v : Operation)
    (props : OperationProperties)
    (hv : ops v = some props) (hunp : props.Unpublished = true)
    (hsc : v = Operation.create ∨ v = Operation.delete ∨
           (v = Operation.update ∧ pubPresent ops Operation.create = false) ∨
           (v = Operation.read ∧ pubPresent ops Operation.list = false) ∨
           (v = Operation.list ∧ pubPresent ops Operation.read = false)) :
    ∀ (st : VerbState) (w : Operation),
      processVerb clean (removeVerb ops v) bf bt st w = processVerb clean ops bf bt st w := by
  intro st w
  obtain ⟨pi, oe⟩ := st
  cases oe with
  | some e => rfl
  | none =>
    by_cases hwv : w = v
    · subst hwv
      rw [processVerb_skip clean (removeVerb ops w) bf bt pi w (by simp [pubPresent, removeVerb]),
          processVerb_skip clean ops bf bt pi w (by simp [pubPresent, hv, hunp])]
    · by_cases hpub : pubPresent ops w = true
      · refine processVerb_congr_at clean ops (removeVerb ops v) bf bt pi w
          (by simp [removeVerb, hwv]) ?_ ?_ ?_
        · intro hwc
          subst hwc
          have hvne : ¬ (Operation.update = v) := by
            rcases hsc with h | h | ⟨h, hp⟩ | ⟨h, hp⟩ | ⟨h, hp⟩
            · subst h; decide
            · subst h; decide
            · exact absurd hpub (by simp [hp])
            · subst h; decide
            · subst h; decide
          simp [removeVerb, hvne]
        · intro hwl
          subst hwl
          have hvne : ¬ (Operation.read = v) := by
            rcases hsc with h | h | ⟨h, hp⟩ | ⟨h, hp⟩ | ⟨h, hp⟩
            · subst h; decide
            · subst h; decide
            · subst h; decide
            · exact absurd hpub (by simp [hp])
            · subst h; decide
          simp [removeVerb, hvne]
        · intro props'
          by_cases hwr : w = Operation.read
          · subst hwr
            have hvne : ¬ (Operation.list = v) := by
              rcases hsc with h | h | ⟨h, hp⟩ | ⟨h, hp⟩ | ⟨h, hp⟩
              · subst h; decide
              · subst h; decide
              · subst h; decide
              · subst h; decide
              · exact absurd hpub (by simp [hp])
            have hls : removeVerb ops v Operation.list = ops Operation.list := by
              simp [removeVerb, hvne]
            rw [hls]
          · exact buildOp_lp_irrel clean w props' bf _ _ bt hwr
      · have hpub' : pubPresent ops w = false := by
          cases hb : pubPresent ops w
          · rfl
          · exact absurd hb hpub
        have hpub'' : pubPresent (removeVerb ops v) w = false := by
          have : pubPresent (removeVerb ops v) w = pubPresent ops w := by
            simp [pubPresent, removeVerb, hwv]
          rw [this, hpub']
        rw [processVerb_skip clean (removeVerb ops v) bf bt pi w hpub'',
            processVerb_skip clean ops bf bt pi w hpub']

/-- A path step only reads the route's fields, help synopsis and resolved
handler map; routes agreeing on those (the loop iterations pointwise) take
identical steps. -/
theorem docPathStep_ext (clean : LogicalResponse → Except String CleanedResponse)
    (vo : List Operation) (p p' : Path) (su ua : List String) (bt : BackendType)
    (hF : p'.Fields = p.Fields) (hH : p'.HelpSynopsis = p.HelpSynopsis)
    (hpv : ∀ (bf : List (String × FieldSchema)) (st : VerbState) (w : Operation),
      processVerb clean (resolveOperations p') bf bt st w
        = processVerb clean (resolveOperations p) bf bt st w) :
    ∀ (st : OASDocument × Option GenError) (path : String),
      docPathStep clean vo p' su ua bt st path = docPathStep clean vo p su ua bt st path := by
  intro st path
  obtain ⟨d, oe⟩ := st
  cases oe with
  | some e => rfl
  | none =>
    simp only [docPathStep, initialPathItem]
    rw [hF, hH]
    have hfun : (processVerb clean (resolveOperations p') (splitFields p.Fields path).2 bt)
        = (processVerb clean (resolveOperations p) (splitFields p.Fields path).2 bt) :=
      funext (fun st' => funext (fun w => hpv _ st' w))
    rw [hfun]

/-- C2 (amended): an unpublished handler contributes no operation for its own
verb, and — provided its verb is not one whose mere presence is consulted by
a published sibling (update beside a published create, read beside a
published list, or list beside a published read) — deleting it from the route
leaves the generated document unchanged. -/
theorem c2_unpublished_removal (clean : LogicalResponse → Except String CleanedResponse)
    (vo : List Operation) (p : Path) (v : Operation) (props : OperationProperties)
    (sp : Option LogicalPaths) (bt : BackendType) (doc : OASDocument)
    (hv : resolveOperations p v = some props) (hunp : props.Unpublished = true)
    (hsc : v = Operation.create ∨ v = Operation.delete ∨
           (v = Operation.update ∧ pubPresent (resolveOperations p) Operation.create = false) ∨
           (v = Operation.read ∧ pubPresent (resolveOperations p) Operation.list = false) ∨
           (v = Operation.list ∧ pubPresent (resolveOperations p) Operation.read = false)) :
    (∀ (bf : List (String × FieldSchema)) (pi : OASPathItem),
        processVerb clean (resolveOperations p) bf bt (pi, none) v = (pi, none)) ∧
    documentPath clean vo (withoutVerb p v) sp bt doc = documentPath clean vo p sp bt doc := by
  constructor
  · intro bf pi
    exact processVerb_skip clean (resolveOperations p) bf bt pi v
      (by simp [pubPresent, hv, hunp])
  · simp only [documentPath]
    have hpat : (withoutVerb p v).Pattern = p.Pattern := rfl
    rw [hpat]
    refine List.foldl_ext _ _ (doc, none) ?_
    intro st path _
    have hpv : ∀ (bf : List (String × FieldSchema)) (st' : VerbState) (w : Operation),
        processVerb clean (resolveOperations (withoutVerb p v)) bf bt st' w
          = processVerb clean (resolveOperations p) bf bt st' w := by
      intro bf st' w
      have hres : resolveOperations (withoutVerb p v) = removeVerb (resolveOperations p) v := rfl
      rw [hres]
      exact processVerb_removeVerb clean (resolveOperations p) bf bt v props hv hunp hsc st' w
    exact docPathStep_ext clean vo p (withoutVerb p v) (sudoOf sp) (unauthOf sp) bt rfl rfl hpv st path

/-- The C2 (amended) property at a concrete route carrying an unpublished
delete handler beside a published read handler: the delete iteration is a
no-op and deleting the handler leaves the generated document unchanged. -/
theorem c2_witness :
    processVerb cleanOk (resolveOperations (routeWith opsDelUnpubReadPub)) []
        BackendType.typeLogical
        ({ Description := "", Parameters := [], Sudo := false, Unauthenticated := false,
           CreateSupported := false, Get := none, Post := none, Delete := none }, none)
        Operation.delete
      = ({ Description := "", Parameters := [], Sudo := false, Unauthenticated := false,
           CreateSupported := false, Get := none, Post := none, Delete := none }, none) ∧
    documentPath cleanOk allVerbs (withoutVerb (routeWith opsDelUnpubReadPub) Operation.delete)
        none BackendType.typeLogical emptyDoc
      = documentPath cleanOk allVerbs (routeWith opsDelUnpubReadPub) none
        BackendType.typeLogical emptyDoc := by
  have h := c2_unpublished_removal cleanOk allVerbs (routeWith opsDelUnpubReadPub)
    Operation.delete propsUnpub none BackendType.typeLogical emptyDoc rfl rfl
    (Or.inr (Or.inl rfl))
  exact ⟨h.1 [] _, h.2⟩

/-- An error reached by a monadic fold over `Except` is raised by some single
step. -/
theorem foldlM_err {ε α β : Type} (f : β → α → Except ε β) (P : ε → Prop)
    (hf : ∀ acc x e, f acc x = Except.error e → P e) :
    ∀ (l : List α) (acc : β) (e : ε), l.foldlM f acc = Except.error e → P e := by
  intro l
  induction l with
  | nil => intro acc e h; cases h
  | cons x xs ih =>
    intro acc e h
    rw [List.foldlM_cons] at h
    cases hf1 : f acc x with
    | error e1 =>
      rw [hf1] at h
      have he : e1 = e := Except.error.inj h
      exact he ▸ hf acc x e1 hf1
    | ok acc1 =>
      rw [hf1] at h
      exact ih acc1 e h

/-- Binding a success in `Except` runs the continuation. -/
theorem except_bind_ok {ε α β : Type} (a : α) (f : α → Except ε β) :
    (Except.ok a >>= f) = f a := rfl

/-- Binding a failure in `Except` short-circuits. -/
theorem except_bind_err {ε α β : Type} (e : ε) (f : α → Except ε β) :
    ((Except.error e : Except ε α) >>= f) = Except.error e := rfl

/-- A content-building failure is a sanitizer failure on one of the declared
examples, with the same error string. -/
theorem buildContent_err (clean : LogicalResponse → Except String CleanedResponse)
    (resps : List RespExample) (s : String)
    (h : buildContent clean resps = Except.error s) :
    ∃ r, clean r = Except.error s := by
  revert h
  refine foldlM_err _ (fun e => ∃ r, clean r = Except.error e) ?_ resps [] s
  intro acc x e hfa
  cases hex : x.Example with
  | none => rw [hex] at hfa; cases hfa
  | some ex =>
    simp only [hex] at hfa
    cases hc : clean ex with
    | error e1 =>
      simp only [hc, except_bind_err] at hfa
      have he : e1 = e := Except.error.inj hfa
      exact ⟨ex, he ▸ hc⟩
    | ok cr =>
      simp only [hc, except_bind_ok] at hfa
      by_cases hk : keyMem acc (if x.MediaType = "" then "application/json" else x.MediaType)
          = true
      · rw [if_pos hk] at hfa; cases hfa
      · rw [if_neg hk] at hfa; cases hfa

/-- A response-building failure is a sanitizer failure, with the same error
string. -/
theorem buildResponses_err (clean : LogicalResponse → Except String CleanedResponse)
    (isDelete : Bool) (rs : List (String × List RespExample)) (s : String)
    (h : buildResponses clean isDelete rs = Except.error s) :
    ∃ r, clean r = Except.error s := by
  revert h
  refine foldlM_err _ (fun e => ∃ r, clean r = Except.error e) ?_ rs _ s
  intro acc x e hfa
  cases hbc : buildContent clean x.2 with
  | error e1 =>
    rw [hbc] at hfa
    have he : e1 = e := Except.error.inj hfa
    exact he ▸ buildContent_err clean x.2 e1 hbc
  | ok content =>
    rw [hbc] at hfa
    cases hfa

/-- An operation-building failure is a sanitizer failure, with the same error
string. -/
theorem buildOp_err (clean : LogicalResponse → Except String CleanedResponse)
    (v : Operation) (props : OperationProperties)
    (bf : List (String × FieldSchema)) (lp : Bool) (bt : BackendType) (s : String)
    (h : buildOp clean v props bf lp bt = Except.error s) :
    ∃ r, clean r = Except.error s := by
  simp only [buildOp] at h
  cases hr : buildResponses clean (decide (v = Operation.delete)) props.Responses with
  | error e1 =>
    rw [hr] at h
    have he : e1 = s := Except.error.inj h
    exact he ▸ buildResponses_err clean _ props.Responses e1 hr
  | ok rs =>
    rw [hr] at h
    cases h

/-- A loop-aborting error is a structural-copy error raised by the sanitizer
on some declared example. -/
theorem stepErr_cleanErr (clean : LogicalResponse → Except String CleanedResponse)
    (ops : Operation → Option OperationProperties)
    (bf : List (String × FieldSchema)) (bt : BackendType) (v : Operation) (e : GenError)
    (h : stepErr clean ops bf bt v = some e) :
    ∃ s, e = GenError.cleanErr s ∧ ∃ r, clean r = Except.error s := by
  by_cases hb : buildsOp ops v = true
  · simp only [stepErr, if_pos hb] at h
    cases hov : ops v with
    | none => rw [hov] at h; cases h
    | some props =>
      simp only [hov] at h
      cases hbo : buildOp clean v props bf (ops Operation.list).isSome bt with
      | error s =>
        rw [hbo] at h
        have he : GenError.cleanErr s = e := Option.some.inj h
        exact ⟨s, he.symm, buildOp_err clean v props bf _ bt s hbo⟩
      | ok op => rw [hbo] at h; cases h
  · simp [stepErr, hb] at h

/-- An aborted verb loop was aborted by one of its iterations. -/
theorem verbFold_err_src (clean : LogicalResponse → Except String CleanedResponse)
    (ops : Operation → Option OperationProperties)
    (bf : List (String × FieldSchema)) (bt : BackendType) :
    ∀ (vo : List Operation) (pi0 pi : OASPathItem) (e : GenError),
      vo.foldl (processVerb clean ops bf bt) (pi0, none) = (pi, some e) →
      ∃ v ∈ vo, stepErr clean ops bf bt v = some e := by
  intro vo
  induction vo with
  | nil => intro pi0 pi e h; simp at h
  | cons w rest ih =>
    intro pi0 pi e h
    rw [List.foldl_cons, processVerb_ok] at h
    cases hse : stepErr clean ops bf bt w with
    | some e1 =>
      rw [hse, foldl_processVerb_err] at h
      have h2 := congrArg Prod.snd h
      have h3 : e1 = e := Option.some.inj h2
      exact ⟨w, List.mem_cons_self w rest, h3 ▸ hse⟩
    | none =>
      rw [hse] at h
      obtain ⟨v, hv, hsev⟩ := ih (stepPI clean ops bf bt w pi0) pi e h
      exact ⟨v, List.mem_cons_of_mem w hv, hsev⟩

/-- The parameter loop's only failure is the nil-pointer panic. -/
theorem buildPathParams_err (pf : List (String × Option FieldSchema)) (e : GenError)
    (h : buildPathParams pf = Except.error e) : e = GenError.nilDeref := by
  revert h
  refine foldlM_err _ (fun e' => e' = GenError.nilDeref) ?_ pf [] e
  intro acc x e' hfa
  cases hx : x.2 with
  | none =>
    rw [hx] at hfa
    exact (Except.error.inj hfa).symm
  | some field => rw [hx] at hfa; cases hfa

/-- A path step that aborts with a structural-copy error got it from the
sanitizer. -/
theorem docPathStep_cleanErr (clean : LogicalResponse → Except String CleanedResponse)
    (vo : List Operation) (p : Path) (su ua : List String) (bt : BackendType)
    (d d' : OASDocument) (path : String) (s : String)
    (h : docPathStep clean vo p su ua bt (d, none) path
      = (d', some (GenError.cleanErr s))) :
    ∃ r, clean r = Except.error s := by
  simp only [docPathStep] at h
  split at h
  next e1 heq =>
    have h2 : e1 = GenError.cleanErr s := Option.some.inj (congrArg Prod.snd h)
    exact absurd (h2 ▸ buildPathParams_err _ e1 heq) (by simp)
  next params heq =>
    split at h
    next pi2 hr => simp at h
    next pi2 e2 hr =>
      have h2 : e2 = GenError.cleanErr s := Option.some.inj (congrArg Prod.snd h)
      subst h2
      obtain ⟨v, hv, hsev⟩ := verbFold_err_src clean (resolveOperations p)
        (splitFields p.Fields path).2 bt vo _ pi2 (GenError.cleanErr s) hr
      obtain ⟨s', hs', hr'⟩ := stepErr_cleanErr clean (resolveOperations p)
        (splitFields p.Fields path).2 bt v (GenError.cleanErr s) hsev
      obtain rfl : s = s' := GenError.cleanErr.inj hs'
      exact hr'

/-- A path fold that aborts with a structural-copy error got it from the
sanitizer. -/
theorem foldl_docPathStep_cleanErr (clean : LogicalResponse → Except String CleanedResponse)
    (vo : List Operation) (p : Path) (su ua : List String) (bt : BackendType) :
    ∀ (L : List String) (doc d : OASDocument) (s : String),
      L.foldl (docPathStep clean vo p su ua bt) (doc, none)
        = (d, some (GenError.cleanErr s)) →
      ∃ r, clean r = Except.error s := by
  intro L
  induction L with
  | nil => intro doc d s h; simp at h
  | cons q rest ih =>
    intro doc d s h
    rw [List.foldl_cons] at h
    cases hstep : docPathStep clean vo p su ua bt (doc, none) q with
    | mk d1 oe1 =>
      cases oe1 with
      | none => rw [hstep] at h; exact ih d1 d s h
      | some e1 =>
        rw [hstep, foldl_docPathStep_err] at h
        have h2 : e1 = GenError.cleanErr s := Option.some.inj (congrArg Prod.snd h)
        subst h2
        exact docPathStep_cleanErr clean vo p su ua bt doc d1 q s hstep

/-- A route fold from an errored state is the identity. -/
theorem foldl_docPathsStep_err (clean : LogicalResponse → Except String CleanedResponse)
    (vo : List Operation) (sp : Option LogicalPaths) (bt : BackendType) :
    ∀ (L : List Path) (d : OASDocument) (e : GenError),
      L.foldl (docPathsStep clean vo sp bt) (d, some e) = (d, some e)
  | [], _, _ => rfl
  | _ :: rest, d, e => foldl_docPathsStep_err clean vo sp bt rest d e

/-- A route fold that aborts with a structural-copy error got it from the
sanitizer. -/
theorem foldl_docPathsStep_cleanErr (clean : LogicalResponse → Except String CleanedResponse)
    (vo : List Operation) (sp : Option LogicalPaths) (bt : BackendType) :
    ∀ (L : List Path) (doc d : OASDocument) (s : String),
      L.foldl (docPathsStep clean vo sp bt) (doc, none)
        = (d, some (GenError.cleanErr s)) →
      ∃ r, clean r = Except.error s := by
  intro L
  induction L with
  | nil => intro doc d s h; simp at h
  | cons p rest ih =>
    intro doc d s h
    rw [List.foldl_cons] at h
    cases hstep : documentPath clean vo p sp bt doc with
    | mk d1 oe1 =>
      cases oe1 with
      | none =>
        rw [show docPathsStep clean vo sp bt (doc, none) p = (d1, none) from hstep] at h
        exact ih d1 d s h
      | some e1 =>
        rw [show docPathsStep clean vo sp bt (doc, none) p = (d1, some e1) from hstep,
            foldl_docPathsStep_err] at h
        have h2 : e1 = GenError.cleanErr s := Option.some.inj (congrArg Prod.snd h)
        subst h2
        exact foldl_docPathStep_cleanErr clean vo p (sudoOf sp) (unauthOf sp) bt
          (expandPattern p.Pattern) doc d1 s hstep

/-- C8: a sanitizer failure on a route aborts `documentPaths` for the whole
backend at that route, returning that error with the remaining routes
unprocessed; and every structural-copy error the call returns originates in
the sanitizer. -/
theorem c8_sanitize_error (clean : LogicalResponse → Except String CleanedResponse)
    (vo : List Operation) (backend : Backend) (doc : OASDocument) :
    (∀ (ps1 : List Path) (p : Path) (ps2 : List Path) (d1 d2 : OASDocument) (e : GenError),
      backend.Paths = ps1 ++ p :: ps2 →
      ps1.foldl (docPathsStep clean vo backend.SpecialPaths backend.backendType) (doc, none)
        = (d1, none) →
      documentPath clean vo p backend.SpecialPaths backend.backendType d1 = (d2, some e) →
      documentPaths clean vo backend doc = (d2, some e)) ∧
    (∀ (d : OASDocument) (s : String),
      documentPaths clean vo backend doc = (d, some (GenError.cleanErr s)) →
      ∃ r, clean r = Except.error s) := by
  constructor
  · intro ps1 p ps2 d1 d2 e hsplit hpre hfail
    simp only [documentPaths, hsplit]
    rw [List.foldl_append, hpre, List.foldl_cons]
    rw [show docPathsStep clean vo backend.SpecialPaths backend.backendType (d1, none) p
        = (d2, some e) from hfail]
    exact foldl_docPathsStep_err clean vo backend.SpecialPaths backend.backendType ps2 d2 e
  · intro d s h
    exact foldl_docPathsStep_cleanErr clean vo backend.SpecialPaths backend.backendType
      backend.Paths doc d s h

/-- The C8 property at a concrete backend whose first route declares a
response example and whose sanitizer fails structurally: generation aborts
with that error, leaving the document untouched, and the error is the
sanitizer's. -/
theorem c8_witness :
    documentPaths cleanFail allVerbs failingBackend emptyDoc
      = (emptyDoc, some (GenError.cleanErr "structural copy failed")) ∧
    ∃ r, cleanFail r = Except.error "structural copy failed" := by
  have h := c8_sanitize_error cleanFail allVerbs failingBackend emptyDoc
  have h1 := h.1 [] (routeWith opsReadWithExample) [routeWith opsCreatePub] emptyDoc emptyDoc
    (GenError.cleanErr "structural copy failed") rfl rfl (by rfl)
  exact ⟨h1, h.2 emptyDoc "structural copy failed" h1⟩

/-- C6 counterexample: in the nested pattern `(?P<a>(?P<b>x))` the inner
capture construct `(?P<b>x)` occurs in the pattern (third conjunct) but the
only returned path is `{a}` — the leftmost match of the capture regex
consumes the inner construct (its `[^)]*` body runs up to the first `)`), so
the inner occurrence is never rewritten to `{b}` (second conjunct): not every
occurrence of a named capture construct is rewritten. -/
theorem c6_counterexample :
    expandPattern "(?P<a>(?P<b>x))" = ["{a}"] ∧
    containsSub "{a}".data "{b}".data = false ∧
    containsSub "(?P<a>(?P<b>x))".data "(?P<b>x)".data = true := by
  refine ⟨by decide, by decide, by decide⟩



/-- `takeWhile` stops exactly at the first failing character. -/
theorem takeWhile_append_stop (p : Char → Bool) (a : List Char) (c : Char) (d : List Char)
    (ha : ∀ x ∈ a, p x = true) (hc : p c = false) :
    (a ++ c :: d).takeWhile p = a := by
  induction a with
  | nil => simp [List.takeWhile, hc]
  | cons x a' ih =>
    have hx : p x = true := ha x (List.mem_cons_self x a')
    simp only [List.cons_append, List.takeWhile, hx]
    exact congrArg (x :: ·) (ih (fun y hy => ha y (List.mem_cons_of_mem x hy)))

/-- A list is a Boolean prefix of itself extended by anything. -/
theorem isPrefixOf_append_self (l t : List Char) : l.isPrefixOf (l ++ t) = true := by
  induction l with
  | nil => simp [List.isPrefixOf]
  | cons x l' ih => simp [List.isPrefixOf, ih]

/-- The first-occurrence replacement walks over characters that cannot start
the needle. -/
theorem replaceFirstSub_skip (a s old new : List Char) (h : Char)
    (hh : old.head? = some h) (ha : ∀ c ∈ a, c ≠ h) :
    replaceFirstSub (a ++ s) old new = a ++ replaceFirstSub s old new := by
  induction a with
  | nil => rfl
  | cons x a' ih =>
    have hx : x ≠ h := ha x (List.mem_cons_self x a')
    have hpre : old.isPrefixOf (x :: (a' ++ s)) = false := by
      cases old with
      | nil => cases hh
      | cons o old' =>
        have ho : o = h := by simpa using hh
        subst ho
        have hox : ¬ (o = x) := fun he => hx (Eq.symm he)
        simp [List.isPrefixOf, hox]
    simp only [List.cons_append, replaceFirstSub, List.append_eq]
    rw [hpre]
    try simp only [Bool.false_eq_true, if_false]
    exact congrArg (x :: ·) (ih (fun y hy => ha y (List.mem_cons_of_mem x hy)))

/-- The first-occurrence replacement fires on the needle itself. -/
theorem replaceFirstSub_here (old s new : List Char) (hne : old ≠ []) :
    replaceFirstSub (old ++ s) old new = new ++ s := by
  cases old with
  | nil => exact absurd rfl hne
  | cons o old' =>
    have hpre : (o :: old').isPrefixOf ((o :: old') ++ s) = true :=
      isPrefixOf_append_self (o :: old') s
    simp only [List.cons_append] at hpre ⊢
    simp only [replaceFirstSub, hpre, if_true]
    simp

/-- The replace-all worker is the identity when no character can start the
needle. -/
theorem replaceAllSubAux_no_head (old new : List Char) (h : Char)
    (hh : old.head? = some h) :
    ∀ (s : List Char) (fuel : Nat), (∀ c ∈ s, c ≠ h) →
      replaceAllSubAux fuel s old new = s := by
  intro s
  induction s with
  | nil => intro fuel _; cases fuel <;> rfl
  | cons x s' ih =>
    intro fuel hs
    cases fuel with
    | zero => rfl
    | succ f =>
      have hx : x ≠ h := hs x (List.mem_cons_self x s')
      have hpre : old.isPrefixOf (x :: s') = false := by
        cases old with
        | nil => cases hh
        | cons o old' =>
          have ho : o = h := by simpa using hh
          subst ho
          have hox : ¬ (o = x) := fun he => hx (Eq.symm he)
          simp [List.isPrefixOf, hox]
      simp only [replaceAllSubAux, hpre]
      try simp only [Bool.false_eq_true, if_false]
      exact congrArg (x :: ·) (ih f (fun y hy => hs y (List.mem_cons_of_mem x hy)))

/-- `strings.Replace(s, old, new, -1)` is the identity when no character of
`s` can start `old`. -/
theorem replaceAllSub_no_head (s old new : List Char) (h : Char)
    (hh : old.head? = some h) (hs : ∀ c ∈ s, c ≠ h) :
    replaceAllSub s old new = s := by
  have hne : ¬ (old = []) := by cases old with | nil => cases hh | cons o old' => simp
  simp only [replaceAllSub, if_neg hne]
  exact replaceAllSubAux_no_head old new h hh s s.length hs

/-- `lastIdxBefore` finds nothing when the character does not occur. -/
theorem lastIdxBefore_none (l : List Char) (c : Char) (stop : Nat)
    (h : ∀ x ∈ l, x ≠ c) : lastIdxBefore l c stop = none := by
  have hfil : ∀ (n : Nat) (m : List Char), (∀ x ∈ m, x ≠ c) →
      (m.enumFrom n).filter (fun p => p.2 = c) = [] := by
    intro n m
    induction m generalizing n with
    | nil => intro _; rfl
    | cons y m' ih =>
      intro hm
      have hy : ¬ (y = c) := hm y (List.mem_cons_self y m')
      simp only [List.enumFrom, List.filter]
      rw [show (decide ((n, y).2 = c)) = false from by simpa using hy]
      exact ih (n + 1) (fun x hx => hm x (List.mem_cons_of_mem y hx))
  have hsub : ∀ x ∈ l.take stop, x ≠ c := fun x hx => h x (List.take_subset stop l hx)
  simp only [lastIdxBefore, List.enum]
  rw [hfil 0 (l.take stop) hsub]
  rfl

/-- Without a `|`, the alternation body match fails. -/
theorem altMatchAfterParen_none (rest : List Char) (h : ∀ x ∈ rest, x ≠ '|') :
    altMatchAfterParen rest = none := by
  simp only [altMatchAfterParen]
  cases hq : lastIdxBefore rest ')' ((rest.takeWhile (fun c => c ≠ '\n')).length) with
  | none => rfl
  | some q =>
    have h2 : lastIdxBefore rest '|' q = none := lastIdxBefore_none rest '|' q h
    simp [h2]

/-- Without a `|`, `altRe` finds no match. -/
theorem altReFind_none (s : List Char) (h : ∀ x ∈ s, x ≠ '|') : altReFind s = none := by
  induction s with
  | nil => rfl
  | cons c t ih =>
    have ht : ∀ x ∈ t, x ≠ '|' := fun x hx => h x (List.mem_cons_of_mem c hx)
    rw [altReFind.eq_def]
    split
    next heq => rfl
    next t1 heq =>
      injection heq with h1 h2
      subst h1
      subst h2
      rw [altMatchAfterParen_none t ht, ih ht]
    next c' t1 hx heq =>
      injection heq with h1 h2
      subst h1
      subst h2
      exact ih ht

/-- `noCloseQ` passes to the tail. -/
theorem noCloseQ_tail (c : Char) (t : List Char) (h : noCloseQ (c :: t) = true) :
    noCloseQ t = true := by
  cases t with
  | nil => rfl
  | cons d r =>
    simp only [noCloseQ, Bool.and_eq_true] at h
    exact h.2

/-- A list without `)` has no `)?` pair. -/
theorem noCloseQ_of_no_close (s : List Char) (h : ∀ x ∈ s, x ≠ ')') :
    noCloseQ s = true := by
  induction s with
  | nil => rfl
  | cons c t ih =>
    cases t with
    | nil => rfl
    | cons d r =>
      have hc : ¬ (c = ')') := h c (List.mem_cons_self c _)
      simp only [noCloseQ, Bool.and_eq_true]
      refine ⟨by simp [hc], ih (fun x hx => h x (List.mem_cons_of_mem c hx))⟩

/-- A list whose only `)` can be the final character has no `)?` pair. -/
theorem noCloseQ_of_close_last (s : List Char) (h : ∀ x ∈ s.dropLast, x ≠ ')') :
    noCloseQ s = true := by
  induction s with
  | nil => rfl
  | cons c t ih =>
    cases t with
    | nil => rfl
    | cons d r =>
      have hc : ¬ (c = ')') := h c (by simp)
      simp only [noCloseQ, Bool.and_eq_true]
      refine ⟨by simp [hc], ih ?_⟩
      intro x hx
      exact h x (by simp [List.dropLast_cons_of_ne_nil]; right; exact hx)

/-- `noCloseQ` is preserved by append when the boundary is safe. -/
theorem noCloseQ_append (a b : List Char)
    (hA : noCloseQ a = true) (hB : noCloseQ b = true)
    (hbd : ∀ x y, a.getLast? = some x → b.head? = some y → ¬ (x = ')' ∧ y = '?')) :
    noCloseQ (a ++ b) = true := by
  induction a with
  | nil => exact hB
  | cons c t ih =>
    cases t with
    | nil =>
      cases b with
      | nil => rfl
      | cons d r =>
        simp only [List.cons_append, List.nil_append, noCloseQ, Bool.and_eq_true]
        refine ⟨?_, hB⟩
        have h3 := hbd c d rfl rfl
        rw [Bool.not_eq_true', decide_eq_false_iff_not]
        exact h3
    | cons e u =>
      simp only [noCloseQ, Bool.and_eq_true] at hA
      have hrec := ih hA.2 (fun x y hx hy => hbd x y (by
        rw [List.getLast?_cons_cons]
        exact hx) hy)
      simp only [List.cons_append] at hrec ⊢
      simp only [noCloseQ, Bool.and_eq_true]
      exact ⟨hA.1, by simpa [List.cons_append] using hrec⟩

/-- Without a `)?` pair, the lazy core scan fails. -/
theorem optScanCore_none (t : List Char) (h : noCloseQ t = true) :
    optScanCore t = none := by
  induction t with
  | nil => rfl
  | cons c r ih =>
    rw [optScanCore.eq_def]
    split
    next r1 heq =>
      injection heq with h1 h2
      subst h1
      cases r with
      | nil => cases h2
      | cons d u =>
        injection h2 with h2a h2b
        subst h2a
        simp [noCloseQ] at h
    next c' rest' hx heq =>
      injection heq with h1 h2
      subst h1
      subst h2
      by_cases hc : c = '\n'
      · rw [if_pos hc]
      · rw [if_neg hc]
        rw [ih (noCloseQ_tail c r h)]
        rfl
    next heq => cases heq

/-- Without a `)?` pair, `optRe` finds no match. -/
theorem optReFind_none (s : List Char) (h : noCloseQ s = true) : optReFind s = none := by
  induction s with
  | nil => rfl
  | cons c t ih =>
    have ht := noCloseQ_tail c t h
    rw [optReFind.eq_def]
    split
    next heq => rfl
    next t1 heq =>
      injection heq with h1 h2
      subst h1
      subst h2
      rw [optScanCore_none t ht, ih ht]
      rfl
    next c' t1 hx heq =>
      injection heq with h1 h2
      subst h1
      subst h2
      rw [ih ht]
      rfl

/-- The optional-group worker leaves a finished list alone. -/
theorem expandOptsAux_done (f : Nat) (done : List (List Char)) :
    expandOptsAux f done [] = done := by
  cases f <;> rfl

/-- A candidate without optional groups is moved to the finished list. -/
theorem expandOptsAux_step_none (f : Nat) (done : List (List Char))
    (p : List Char) (rest : List (List Char)) (h : optReFind p = none) :
    expandOptsAux (f + 1) done (p :: rest) = expandOptsAux f (done ++ [p]) rest := by
  simp [expandOptsAux, h]

/-- The whole optional-group expansion of a single candidate without optional
groups. -/
theorem expandOpts_single (p : List Char) (h : optReFind p = none) :
    expandOptsAux (expandOptsFuel [p]) [] [p] = [p] := by
  obtain ⟨f, hf⟩ : ∃ f, expandOptsFuel [p] = f + 1 := by
    refine ⟨2 * 3 ^ (p.filter (fun c => c = '?')).length + 2, ?_⟩
    simp only [expandOptsFuel, List.map_cons, List.map_nil, List.sum_cons, List.sum_nil,
      List.length_cons, List.length_nil]
    ring
  rw [hf, expandOptsAux_step_none f [] p [] h, expandOptsAux_done]
  rfl

/-- Unpacking the segment-character predicate. -/
theorem segCharOk_spec (c : Char) (h : segCharOk c = true) :
    ¬ c = '(' ∧ ¬ c = ')' ∧ ¬ c = '|' ∧ ¬ c = '?' ∧ ¬ c = '\\' ∧ ¬ c = '^' ∧ ¬ c = '$' := by
  simpa [segCharOk, not_or] using h

/-- Unpacking the body-character predicate. -/
theorem bodyCharOk_spec (c : Char) (h : bodyCharOk c = true) :
    ¬ c = ')' ∧ ¬ c = '|' ∧ ¬ c = '\\' := by
  simpa [bodyCharOk, not_or] using h

/-- The capture regex cannot fire at a character other than `(` or `?`. -/
theorem reqdMatchAt_skip (c : Char) (t : List Char) (hc1 : ¬ c = '(') (hc2 : ¬ c = '?') :
    reqdMatchAt (c :: t) = none := by
  rw [reqdMatchAt.eq_def]
  split
  next s1 t1 heq =>
    injection heq with h1 h2
    exact absurd h1 hc1
  next s1 hx =>
    simp only []
    split
    next t2 u heq2 =>
      injection heq2 with h1 h2
      exact absurd h1 hc2
    next t2 hx2 => rfl

/-- The capture regex anchored at a capture construct consumes exactly it. -/
theorem reqdMatchAt_cap (n b rest : List Char) (hn : n ≠ [])
    (hnw : ∀ c ∈ n, isWordChar c = true) (hb : ∀ c ∈ b, ¬ c = ')') :
    reqdMatchAt (capTextChars n b ++ rest) = some (capTextChars n b, n, rest) := by
  have hu : capTextChars n b ++ rest
      = '(' :: '?' :: 'P' :: '<' :: (n ++ '>' :: (b ++ ')' :: rest)) := by
    simp [capTextChars]
  have h1 : (n ++ '>' :: (b ++ ')' :: rest)).takeWhile isWordChar = n :=
    takeWhile_append_stop isWordChar n '>' (b ++ ')' :: rest) hnw (by decide)
  have h2 : (n ++ '>' :: (b ++ ')' :: rest)).drop n.length = '>' :: (b ++ ')' :: rest) :=
    List.drop_left n ('>' :: (b ++ ')' :: rest))
  have h3 : (b ++ ')' :: rest).takeWhile (fun c => c ≠ ')') = b := by
    refine takeWhile_append_stop _ b ')' rest (fun x hx => by simpa using hb x hx) (by decide)
  have h4 : (b ++ ')' :: rest).drop b.length = ')' :: rest := List.drop_left b (')' :: rest)
  rw [hu, reqdMatchAt.eq_def]
  simp only [h1, h2, h3, h4, hn, capTextChars]
  simp

/-- The scan of the empty input. -/
theorem reqdFindAllAux_nil (f : Nat) : reqdFindAllAux f [] = [] := by
  cases f <;> rfl

/-- One scan step over a position where the capture regex fails. -/
theorem reqdFindAllAux_step_none (g : Nat) (c : Char) (l : List Char)
    (h : reqdMatchAt (c :: l) = none) :
    reqdFindAllAux (g + 1) (c :: l) = reqdFindAllAux g l := by
  simp [reqdFindAllAux, h]

/-- One scan step over a match: record it and resume after it. -/
theorem reqdFindAllAux_step_some (g : Nat) (l : List Char) (hl : l ≠ [])
    (txt name r : List Char) (h : reqdMatchAt l = some (txt, name, r)) :
    reqdFindAllAux (g + 1) l = (txt, name) :: reqdFindAllAux g r := by
  cases l with
  | nil => exact absurd rfl hl
  | cons c l' => simp [reqdFindAllAux, h]

/-- The scan walks over a capture-free segment. -/
theorem reqdAux_skip (seg : List Char) (hseg : ∀ c ∈ seg, segCharOk c = true) :
    ∀ (rest : List Char) (f : Nat),
      reqdFindAllAux (seg.length + f) (seg ++ rest) = reqdFindAllAux f rest := by
  induction seg with
  | nil => intro rest f; simp
  | cons c s' ih =>
    intro rest f
    obtain ⟨hc1, _, _, hc4, _⟩ := segCharOk_spec c (hseg c (List.mem_cons_self c s'))
    have hlen : (c :: s').length + f = (s'.length + f) + 1 := by
      simp [List.length_cons]
      ring
    rw [hlen, List.cons_append,
      reqdFindAllAux_step_none (s'.length + f) c (s' ++ rest) (reqdMatchAt_skip c _ hc1 hc4)]
    exact ih (fun x hx => hseg x (List.mem_cons_of_mem c hx)) rest f

/-- The scan of an interleaved pattern records exactly its capture
constructs, in order. -/
theorem reqdAux_mk :
    ∀ (parts : List ((List Char × List Char) × List Char)) (seg0 : List Char) (f : Nat),
      (∀ c ∈ seg0, segCharOk c = true) →
      (∀ pr ∈ parts, pr.1.1 ≠ [] ∧ (∀ c ∈ pr.1.1, isWordChar c = true)
        ∧ (∀ c ∈ pr.1.2, bodyCharOk c = true) ∧ (∀ c ∈ pr.2, segCharOk c = true)) →
      reqdFindAllAux (seg0.length + (partsFuel parts + f)) (mkPattern seg0 parts)
        = parts.map (fun pr => (capTextChars pr.1.1 pr.1.2, pr.1.1)) := by
  intro parts
  induction parts with
  | nil =>
    intro seg0 f hseg0 _
    have : mkPattern seg0 [] = seg0 ++ [] := by simp [mkPattern]
    rw [this, reqdAux_skip seg0 hseg0 [] (partsFuel [] + f), reqdFindAllAux_nil]
    rfl
  | cons pr rest' ih =>
    intro seg0 f hseg0 hparts
    obtain ⟨⟨n, b⟩, sg⟩ := pr
    obtain ⟨hn, hnw, hbw, hsg⟩ := hparts ((n, b), sg) (List.mem_cons_self _ _)
    have hrest : ∀ pr ∈ rest', pr.1.1 ≠ [] ∧ (∀ c ∈ pr.1.1, isWordChar c = true)
        ∧ (∀ c ∈ pr.1.2, bodyCharOk c = true) ∧ (∀ c ∈ pr.2, segCharOk c = true) :=
      fun q hq => hparts q (List.mem_cons_of_mem _ hq)
    have hshape : mkPattern seg0 (((n, b), sg) :: rest')
        = seg0 ++ (capTextChars n b ++ mkPattern sg rest') := by
      simp [mkPattern, List.append_assoc]
    have hfuel : seg0.length + (partsFuel (((n, b), sg) :: rest') + f)
        = seg0.length + (((sg.length + (partsFuel rest' + f)) + 1)) := by
      simp [partsFuel]
      ring
    rw [hshape, hfuel,
      reqdAux_skip seg0 hseg0 (capTextChars n b ++ mkPattern sg rest')
        ((sg.length + (partsFuel rest' + f)) + 1),
      reqdFindAllAux_step_some (sg.length + (partsFuel rest' + f))
        (capTextChars n b ++ mkPattern sg rest') (by simp [capTextChars])
        (capTextChars n b) n (mkPattern sg rest')
        (reqdMatchAt_cap n b (mkPattern sg rest') hn hnw
          (fun c hc => (bodyCharOk_spec c (hbw c hc)).1)),
      ih sg f hsg hrest]
    rfl

/-- The length of an interleaved pattern dominates the scan fuel it needs. -/
theorem mkPattern_length_fuel :
    ∀ (parts : List ((List Char × List Char) × List Char)) (seg0 : List Char),
      ∃ f0, (mkPattern seg0 parts).length = seg0.length + (partsFuel parts + f0) := by
  intro parts
  induction parts with
  | nil => intro seg0; exact ⟨0, by simp [mkPattern, partsFuel]⟩
  | cons pr rest' ih =>
    intro seg0
    obtain ⟨⟨n, b⟩, sg⟩ := pr
    obtain ⟨f0, hf0⟩ := ih sg
    refine ⟨n.length + b.length + 5 + f0, ?_⟩
    simp only [mkPattern, partsFuel, List.length_append, hf0, capTextChars]
    simp [List.length_append]
    ring

/-- `reqdRe.FindAllStringSubmatch` on an interleaved pattern returns exactly
its capture constructs, in order. -/
theorem reqdFindAll_mk (seg0 : List Char) (parts : List ((List Char × List Char) × List Char))
    (hseg0 : ∀ c ∈ seg0, segCharOk c = true)
    (hparts : ∀ pr ∈ parts, pr.1.1 ≠ [] ∧ (∀ c ∈ pr.1.1, isWordChar c = true)
      ∧ (∀ c ∈ pr.1.2, bodyCharOk c = true) ∧ (∀ c ∈ pr.2, segCharOk c = true)) :
    reqdFindAll (mkPattern seg0 parts)
      = parts.map (fun pr => (capTextChars pr.1.1 pr.1.2, pr.1.1)) := by
  obtain ⟨f0, hf0⟩ := mkPattern_length_fuel parts seg0
  rw [reqdFindAll, hf0]
  exact reqdAux_mk parts seg0 f0 hseg0 hparts

/-- Prefixing lemma for the pattern builder. -/
theorem mkPattern_pre (seg0 : List Char) (parts : List ((List Char × List Char) × List Char)) :
    mkPattern seg0 parts = seg0 ++ mkPattern [] parts := by
  cases parts with
  | nil => simp [mkPattern]
  | cons pr r =>
    obtain ⟨⟨n, b⟩, sg⟩ := pr
    simp [mkPattern]

/-- Prefixing lemma for the result builder. -/
theorem mkResult_pre (seg0 : List Char) (parts : List ((List Char × List Char) × List Char)) :
    mkResult seg0 parts = seg0 ++ mkResult [] parts := by
  cases parts with
  | nil => simp [mkResult]
  | cons pr r =>
    obtain ⟨⟨n, b⟩, sg⟩ := pr
    simp [mkResult]

/-- A word character is none of the scanners' trigger characters. -/
theorem wordChar_ne (c d : Char) (hd : isWordChar d = false) (h : isWordChar c = true) :
    ¬ c = d := by
  intro he
  subst he
  rw [h] at hd
  cases hd

/-- A word character survives the cleanup filter. -/
theorem wordChar_not_clean (c : Char) (h : isWordChar c = true) : isCleanChar c = false := by
  cases hic : isCleanChar c
  · rfl
  · exfalso
    simp only [isCleanChar, decide_eq_true_eq] at hic
    rcases hic with h1 | h1 | h1 | h1 | h1 <;> (subst h1; exact absurd h (by decide))

/-- A segment character survives the cleanup filter. -/
theorem segCharOk_not_clean (c : Char) (h : segCharOk c = true) : isCleanChar c = false := by
  obtain ⟨h1, h2, _, h4, _, h6, h7⟩ := segCharOk_spec c h
  cases hic : isCleanChar c
  · rfl
  · exfalso
    simp only [isCleanChar, decide_eq_true_eq] at hic
    rcases hic with hh | hh | hh | hh | hh
    exacts [absurd hh h1, absurd hh h2, absurd hh h6, absurd hh h7, absurd hh h4]

/-- Character classification of an interleaved pattern. -/
theorem mkPattern_chars :
    ∀ (parts : List ((List Char × List Char) × List Char)) (seg0 : List Char),
      (∀ c ∈ seg0, segCharOk c = true) →
      (∀ pr ∈ parts, pr.1.1 ≠ [] ∧ (∀ c ∈ pr.1.1, isWordChar c = true)
        ∧ (∀ c ∈ pr.1.2, bodyCharOk c = true) ∧ (∀ c ∈ pr.2, segCharOk c = true)) →
      ∀ c ∈ mkPattern seg0 parts,
        segCharOk c = true ∨ isWordChar c = true ∨ bodyCharOk c = true ∨
          c = '(' ∨ c = '?' ∨ c = 'P' ∨ c = '<' ∨ c = '>' ∨ c = ')' := by
  intro parts
  induction parts with
  | nil =>
    intro seg0 hseg0 _ c hc
    exact Or.inl (hseg0 c hc)
  | cons pr rest' ih =>
    intro seg0 hseg0 hparts c hc
    obtain ⟨⟨n, b⟩, sg⟩ := pr
    obtain ⟨hn, hnw, hbw, hsg⟩ := hparts _ (List.mem_cons_self _ _)
    simp only [mkPattern, List.mem_append] at hc
    rcases hc with (hc | hc) | hc
    · exact Or.inl (hseg0 c hc)
    · have hcap : c = '(' ∨ c = '?' ∨ c = 'P' ∨ c = '<' ∨ c ∈ n ∨ c = '>' ∨ c ∈ b ∨ c = ')' := by
        simpa [capTextChars, List.mem_cons, List.mem_append, or_assoc] using hc
      rcases hcap with hc | hc | hc | hc | hc | hc | hc | hc
      · exact Or.inr (Or.inr (Or.inr (Or.inl hc)))
      · exact Or.inr (Or.inr (Or.inr (Or.inr (Or.inl hc))))
      · exact Or.inr (Or.inr (Or.inr (Or.inr (Or.inr (Or.inl hc)))))
      · exact Or.inr (Or.inr (Or.inr (Or.inr (Or.inr (Or.inr (Or.inl hc))))))
      · exact Or.inr (Or.inl (hnw c hc))
      · exact Or.inr (Or.inr (Or.inr (Or.inr (Or.inr (Or.inr (Or.inr (Or.inl hc)))))))
      · exact Or.inr (Or.inr (Or.inl (hbw c hc)))
      · exact Or.inr (Or.inr (Or.inr (Or.inr (Or.inr (Or.inr (Or.inr (Or.inr hc)))))))
    · exact ih sg hsg (fun q hq => hparts q (List.mem_cons_of_mem _ hq)) c hc

/-- Character classification of the rewritten result. -/
theorem mkResult_chars :
    ∀ (parts : List ((List Char × List Char) × List Char)) (seg0 : List Char),
      (∀ c ∈ seg0, segCharOk c = true) →
      (∀ pr ∈ parts, pr.1.1 ≠ [] ∧ (∀ c ∈ pr.1.1, isWordChar c = true)
        ∧ (∀ c ∈ pr.1.2, bodyCharOk c = true) ∧ (∀ c ∈ pr.2, segCharOk c = true)) →
      ∀ c ∈ mkResult seg0 parts,
        segCharOk c = true ∨ isWordChar c = true ∨ c = '{' ∨ c = '}' := by
  intro parts
  induction parts with
  | nil =>
    intro seg0 hseg0 _ c hc
    exact Or.inl (hseg0 c hc)
  | cons pr rest' ih =>
    intro seg0 hseg0 hparts c hc
    obtain ⟨⟨n, b⟩, sg⟩ := pr
    obtain ⟨hn, hnw, hbw, hsg⟩ := hparts _ (List.mem_cons_self _ _)
    simp only [mkResult, List.mem_append] at hc
    rcases hc with (hc | hc) | hc
    · exact Or.inl (hseg0 c hc)
    · have hph : c = '{' ∨ c ∈ n ∨ c = '}' := by
        simpa [phChars, List.mem_cons, List.mem_append, or_assoc] using hc
      rcases hph with hc | hc | hc
      · exact Or.inr (Or.inr (Or.inl hc))
      · exact Or.inr (Or.inl (hnw c hc))
      · exact Or.inr (Or.inr (Or.inr hc))
    · exact ih sg hsg (fun q hq => hparts q (List.mem_cons_of_mem _ hq)) c hc

/-- `getLast?` returns a member. -/
theorem mem_of_getLast (l : List Char) (x : Char) (h : l.getLast? = some x) : x ∈ l := by
  induction l with
  | nil => cases h
  | cons c t ih =>
    cases t with
    | nil =>
      have : c = x := by simpa using h
      simp [this]
    | cons d r =>
      rw [List.getLast?_cons_cons] at h
      exact List.mem_cons_of_mem c (ih h)

/-- The head of an interleaved pattern is a segment character or `(`. -/
theorem mkPattern_head (sg : List Char) (rest : List ((List Char × List Char) × List Char)) :
    ∀ y, (mkPattern sg rest).head? = some y → y ∈ sg ∨ y = '(' := by
  cases sg with
  | cons x sg' =>
    intro y hy
    cases rest with
    | nil =>
      have : x = y := by simpa [mkPattern] using hy
      exact Or.inl (this ▸ List.mem_cons_self x sg')
    | cons pr r =>
      obtain ⟨⟨n, b⟩, sg2⟩ := pr
      have : x = y := by simpa [mkPattern] using hy
      exact Or.inl (this ▸ List.mem_cons_self x sg')
  | nil =>
    intro y hy
    cases rest with
    | nil => cases hy
    | cons pr r =>
      obtain ⟨⟨n, b⟩, sg2⟩ := pr
      have : '(' = y := by simpa [mkPattern, capTextChars] using hy
      exact Or.inr this.symm

/-- An interleaved pattern never contains `)` immediately followed by `?`. -/
theorem mkPattern_noCloseQ :
    ∀ (parts : List ((List Char × List Char) × List Char)) (seg0 : List Char),
      (∀ c ∈ seg0, segCharOk c = true) →
      (∀ pr ∈ parts, pr.1.1 ≠ [] ∧ (∀ c ∈ pr.1.1, isWordChar c = true)
        ∧ (∀ c ∈ pr.1.2, bodyCharOk c = true) ∧ (∀ c ∈ pr.2, segCharOk c = true)) →
      noCloseQ (mkPattern seg0 parts) = true := by
  intro parts
  induction parts with
  | nil =>
    intro seg0 hseg0 _
    exact noCloseQ_of_no_close seg0 (fun c hc => (segCharOk_spec c (hseg0 c hc)).2.1)
  | cons pr rest' ih =>
    intro seg0 hseg0 hparts
    obtain ⟨⟨n, b⟩, sg⟩ := pr
    obtain ⟨hn, hnw, hbw, hsg⟩ := hparts _ (List.mem_cons_self _ _)
    have hrest : ∀ pr ∈ rest', pr.1.1 ≠ [] ∧ (∀ c ∈ pr.1.1, isWordChar c = true)
        ∧ (∀ c ∈ pr.1.2, bodyCharOk c = true) ∧ (∀ c ∈ pr.2, segCharOk c = true) :=
      fun q hq => hparts q (List.mem_cons_of_mem _ hq)
    have hct : capTextChars n b = ('(' :: '?' :: 'P' :: '<' :: (n ++ '>' :: b)) ++ [')'] := by
      simp [capTextChars]
    have hctLast : (capTextChars n b).getLast? = some ')' := by
      rw [hct]
      exact List.getLast?_concat _
    have hctNC : noCloseQ (capTextChars n b) = true := by
      refine noCloseQ_of_close_last _ ?_
      rw [hct, List.dropLast_concat]
      intro x hx
      simp only [List.mem_cons, List.mem_append] at hx
      rcases hx with hx | hx | hx | hx | (hx | hx | hx)
      · subst hx; decide
      · subst hx; decide
      · subst hx; decide
      · subst hx; decide
      · exact wordChar_ne x ')' (by decide) (hnw x hx)
      · subst hx; decide
      · exact (bodyCharOk_spec x (hbw x hx)).1
    have hB : noCloseQ (capTextChars n b ++ mkPattern sg rest') = true := by
      refine noCloseQ_append _ _ hctNC (ih sg hsg hrest) ?_
      intro x y hx hy
      rintro ⟨hx', hy'⟩
      subst hy'
      rcases mkPattern_head sg rest' '?' hy with hmem | habs
      · exact absurd rfl (segCharOk_spec '?' (hsg '?' hmem)).2.2.2.1
      · cases habs
    have hshape : mkPattern seg0 (((n, b), sg) :: rest')
        = seg0 ++ (capTextChars n b ++ mkPattern sg rest') := by
      simp [mkPattern, List.append_assoc]
    rw [hshape]
    refine noCloseQ_append _ _ ?_ hB ?_
    · exact noCloseQ_of_no_close seg0 (fun c hc => (segCharOk_spec c (hseg0 c hc)).2.1)
    · intro x y hx hy
      rintro ⟨hx', hy'⟩
      subst hx'
      exact absurd rfl (segCharOk_spec ')' (hseg0 ')' (mem_of_getLast seg0 ')' hx))).2.1

/-- The replacement fold rewrites each capture construct, leftmost first,
into the placeholder interleaving. -/
theorem replaceCaps_fold :
    ∀ (parts : List ((List Char × List Char) × List Char)) (pre : List Char),
      (∀ c ∈ pre, ¬ c = '(') →
      (∀ pr ∈ parts, pr.1.1 ≠ [] ∧ (∀ c ∈ pr.1.1, isWordChar c = true)
        ∧ (∀ c ∈ pr.1.2, bodyCharOk c = true) ∧ (∀ c ∈ pr.2, segCharOk c = true)) →
      (parts.map (fun pr => (capTextChars pr.1.1 pr.1.2, pr.1.1))).foldl
        (fun acc m => replaceFirstSub acc m.1 ('{' :: m.2 ++ ['}'])) (pre ++ mkPattern [] parts)
      = pre ++ mkResult [] parts := by
  intro parts
  induction parts with
  | nil =>
    intro pre _ _
    simp [mkPattern, mkResult]
  | cons pr rest' ih =>
    intro pre hpre hparts
    obtain ⟨⟨n, b⟩, sg⟩ := pr
    obtain ⟨hn, hnw, hbw, hsg⟩ := hparts _ (List.mem_cons_self _ _)
    have hrest : ∀ pr ∈ rest', pr.1.1 ≠ [] ∧ (∀ c ∈ pr.1.1, isWordChar c = true)
        ∧ (∀ c ∈ pr.1.2, bodyCharOk c = true) ∧ (∀ c ∈ pr.2, segCharOk c = true) :=
      fun q hq => hparts q (List.mem_cons_of_mem _ hq)
    have hmk : mkPattern [] (((n, b), sg) :: rest')
        = capTextChars n b ++ mkPattern sg rest' := by
      simp [mkPattern]
    simp only [List.map_cons, List.foldl_cons]
    have hstep : replaceFirstSub (pre ++ mkPattern [] (((n, b), sg) :: rest'))
        (capTextChars n b) ('{' :: n ++ ['}'])
        = (pre ++ phChars n ++ sg) ++ mkPattern [] rest' := by
      rw [hmk,
        replaceFirstSub_skip pre (capTextChars n b ++ mkPattern sg rest')
          (capTextChars n b) ('{' :: n ++ ['}']) '(' (by simp [capTextChars]) hpre,
        replaceFirstSub_here (capTextChars n b) (mkPattern sg rest') ('{' :: n ++ ['}'])
          (by simp [capTextChars]),
        mkPattern_pre sg rest']
      simp [phChars, List.append_assoc]
    rw [hstep]
    have hpre' : ∀ c ∈ pre ++ phChars n ++ sg, ¬ c = '(' := by
      intro c hc
      have hc' : c ∈ pre ∨ c = '{' ∨ c ∈ n ∨ c = '}' ∨ c ∈ sg := by
        simpa [phChars, List.mem_append, List.mem_cons, or_assoc] using hc
      rcases hc' with hc2 | hc2 | hc2 | hc2 | hc2
      · exact hpre c hc2
      · subst hc2; decide
      · exact wordChar_ne c '(' (by decide) (hnw c hc2)
      · subst hc2; decide
      · intro he
        subst he
        exact (segCharOk_spec '(' (hsg '(' hc2)).1 rfl
    rw [ih (pre ++ phChars n ++ sg) hpre' hrest]
    have hres : mkResult [] (((n, b), sg) :: rest') = phChars n ++ (sg ++ mkResult [] rest') := by
      rw [show mkResult [] (((n, b), sg) :: rest') = [] ++ phChars n ++ mkResult sg rest' from rfl,
        mkResult_pre sg rest']
      simp [List.append_assoc]
    rw [hres]
    simp [List.append_assoc]

/-- Without a `?`, the suffix cleanup is the identity. -/
theorem cleanSuffix_no_q (s : List Char) (h : ∀ c ∈ s, ¬ c = '?') : cleanSuffix s = s := by
  have h1 : ∀ (u : List Char), '?' ∈ u → u.isSuffixOf s = true → False := by
    intro u hu hsuf
    have hs : u <:+ s := by
      rw [← List.isSuffixOf_iff_suffix]
      exact hsuf
    exact absurd rfl (h '?' (hs.subset hu))
  simp only [cleanSuffix]
  rw [if_neg (fun hc => h1 _ (by decide) hc), if_neg (fun hc => h1 _ (by decide) hc)]

/-- Without cleanup characters, the character cleanup is the identity. -/
theorem cleanChars_id (s : List Char) (h : ∀ c ∈ s, isCleanChar c = false) :
    cleanChars s = s := by
  simp only [cleanChars]
  refine List.filter_eq_self.mpr ?_
  intro a ha
  simp [h a ha]

/-- C6 (amended): for EVERY pattern interleaving capture-free segments with
named capture constructs — names non-empty word runs, bodies free of `)`,
`|` and backslash, segments free of the regex punctuation `( ) | ? \ ^ $` —
`expandPattern` returns exactly one path, in which every capture occurrence
(repeated identical texts and distinct captures alike) is rewritten to its
`{name}` placeholder, the segments kept verbatim. -/
theorem c6_captures_rewritten (seg0 : List Char)
    (parts : List ((List Char × List Char) × List Char))
    (hseg0 : ∀ c ∈ seg0, segCharOk c = true)
    (hparts : ∀ pr ∈ parts, pr.1.1 ≠ [] ∧ (∀ c ∈ pr.1.1, isWordChar c = true)
      ∧ (∀ c ∈ pr.1.2, bodyCharOk c = true) ∧ (∀ c ∈ pr.2, segCharOk c = true)) :
    expandPattern (String.mk (mkPattern seg0 parts))
      = [String.mk (mkResult seg0 parts)] := by
  have hchars := mkPattern_chars parts seg0 hseg0 hparts
  have hnb : ∀ c ∈ mkPattern seg0 parts, c ≠ '\\' := by
    intro c hc
    rcases hchars c hc with h | h | h | h | h | h | h | h | h
    · exact (segCharOk_spec c h).2.2.2.2.1
    · exact wordChar_ne c '\\' (by decide) h
    · exact (bodyCharOk_spec c h).2.2
    all_goals (subst h; decide)
  have hnpipe : ∀ c ∈ mkPattern seg0 parts, c ≠ '|' := by
    intro c hc
    rcases hchars c hc with h | h | h | h | h | h | h | h | h
    · exact (segCharOk_spec c h).2.2.1
    · exact wordChar_ne c '|' (by decide) h
    · exact (bodyCharOk_spec c h).2.1
    all_goals (subst h; decide)
  have hrchars := mkResult_chars parts seg0 hseg0 hparts
  have hq : ∀ c ∈ mkResult seg0 parts, ¬ c = '?' := by
    intro c hc
    rcases hrchars c hc with h | h | h | h
    · exact (segCharOk_spec c h).2.2.2.1
    · exact wordChar_ne c '?' (by decide) h
    · subst h; decide
    · subst h; decide
  have hcc : ∀ c ∈ mkResult seg0 parts, isCleanChar c = false := by
    intro c hc
    rcases hrchars c hc with h | h | h | h
    · exact segCharOk_not_clean c h
    · exact wordChar_not_clean c h
    · subst h; decide
    · subst h; decide
  have hrc : replaceCaptures (mkPattern seg0 parts) = mkResult seg0 parts := by
    rw [replaceCaptures, reqdFindAll_mk seg0 parts hseg0 hparts]
    have hpre0 : ∀ c ∈ seg0, ¬ c = '(' := fun c hc => (segCharOk_spec c (hseg0 c hc)).1
    have hfold := replaceCaps_fold parts seg0 hpre0 hparts
    rw [← mkPattern_pre seg0 parts, ← mkResult_pre seg0 parts] at hfold
    exact hfold
  simp only [expandPattern]
  rw [replaceAllSub_no_head (mkPattern seg0 parts) regexToRemove [] '\\' (by decide) hnb]
  rw [altReFind_none (mkPattern seg0 parts) hnpipe]
  simp only []
  rw [expandOpts_single (mkPattern seg0 parts)
    (optReFind_none (mkPattern seg0 parts) (mkPattern_noCloseQ parts seg0 hseg0 hparts))]
  simp only [List.map_cons, List.map_nil]
  rw [hrc, cleanSuffix_no_q (mkResult seg0 parts) hq, cleanChars_id (mkResult seg0 parts) hcc]

/-- The C6 (amended) property at the concrete duplicate-capture pattern: an
interleaving of two identical captures around a `/` segment is rewritten to
the placeholder on both occurrences. -/
theorem c6_witness :
    expandPattern "(?P<a>x)/(?P<a>x)" = ["{a}/{a}"] := by
  have h := c6_captures_rewritten [] [((['a'], ['x']), ['/']), ((['a'], ['x']), [])]
    (by decide) (by decide)
  have hp : String.mk (mkPattern [] [((['a'], ['x']), ['/']), ((['a'], ['x']), [])])
      = "(?P<a>x)/(?P<a>x)" := by decide
  have hr : String.mk (mkResult [] [((['a'], ['x']), ['/']), ((['a'], ['x']), [])])
      = "{a}/{a}" := by decide
  rw [hp, hr] at h
  exact h

end VaultOAS
